import Mathlib

/-!
Verification of the access-resolution, caching, retry, scanning and
navigation logic of the `awss` S3 terminal browser (src/awss/s3.py and
src/awss/app.py), shallowly embedded in Lean.  External effects (the boto3
client, the filesystem, the asyncio loop) are modelled as explicit inputs:
client responses become parameters, the JSON cache file becomes a typed
payload value, and the cooperative scheduler becomes an explicit
interleaving of atomic steps between await points.
-/

set_option maxHeartbeats 1000000

namespace AwsS3Tui

/-- Access level constant `BUCKET_ACCESS_UNKNOWN` (s3.py line 16). -/
def BUCKET_ACCESS_UNKNOWN : String := "unknown"

/-- Access level constant `BUCKET_ACCESS_NO_VIEW` (s3.py line 17). -/
def BUCKET_ACCESS_NO_VIEW : String := "no_view"

/-- Access level constant `BUCKET_ACCESS_NO_DOWNLOAD` (s3.py line 18). -/
def BUCKET_ACCESS_NO_DOWNLOAD : String := "no_download"

/-- Access level constant `BUCKET_ACCESS_GOOD` (s3.py line 19). -/
def BUCKET_ACCESS_GOOD : String := "good"

/-- Embeds `S3Service._bucket_access_level`, i.e.
`BUCKET_ACCESS_LEVELS.get(access, 0)` with the dict defined at s3.py
lines 20-25 (`no_view: 0, no_download: 1, good: 2, unknown: 0`). -/
def bucketAccessLevel (access : String) : Nat :=
  if access = BUCKET_ACCESS_NO_VIEW then 0
  else if access = BUCKET_ACCESS_NO_DOWNLOAD then 1
  else if access = BUCKET_ACCESS_GOOD then 2
  else if access = BUCKET_ACCESS_UNKNOWN then 0
  else 0

/-- Embeds the dataclass `BucketInfo` (s3.py lines 28-33).  A `none`
profile is Python's `None`, meaning the default credentials. -/
structure BucketInfo where
  name : String
  profile : Option String
  access : String
  is_empty : Bool
deriving DecidableEq, Repr

/-- Models a raised Python exception by its type name and message, the
only attributes `_is_sso_expired_error` inspects. -/
structure PyExc where
  excType : String
  msg : String
deriving DecidableEq, Repr

/-- Marker substrings from `S3Service._is_sso_expired_error`
(s3.py lines 87-98; the identical list appears in app.py lines 1063-1074). -/
def ssoExpiredMarkers : List String :=
  ["unauthorizedssotokenerror", "sso session", "sso token", "token has expired",
   "token is expired", "expiredtoken",
   "the sso session associated with this profile has expired",
   "error loading sso token", "run aws sso login", "aws sso login"]

/-- Character-list view of `str.endswith` (Python indexes strings by
character, as Lean's `String.data` does). -/
def chEndsWith (s t : String) : Bool :=
  t.data.reverse.isPrefixOf s.data.reverse

/-- Character-list view of `str.startswith`. -/
def chStartsWith (s t : String) : Bool :=
  t.data.isPrefixOf s.data

/-- Character-list view of the slice `s[n:]`. -/
def chDrop (s : String) (n : Nat) : String :=
  ⟨s.data.drop n⟩

/-- Character-list view of `len(s)`. -/
def chLen (s : String) : Nat :=
  s.data.length

/-- Character-list view of `c in s` for a single character. -/
def chContains (s : String) (c : Char) : Bool :=
  s.data.contains c

/-- Python `str.strip()` whitespace characters. -/
def isPySpace (c : Char) : Bool :=
  c = ' ' ∨ c = '\t' ∨ c = '\n' ∨ c = '\r' ∨ c = '\x0b' ∨ c = '\x0c'

/-- Character-list view of `str.strip()`. -/
def chStrip (s : String) : String :=
  ⟨((s.data.dropWhile isPySpace).reverse.dropWhile isPySpace).reverse⟩

/-- Character-list view of `str.split("/")`: splitting on a single slash,
with Python's semantics (`"".split("/") == [""]`). -/
def splitSlash : List Char → List (List Char)
  | [] => [[]]
  | c :: rest =>
    let r := splitSlash rest
    if c = '/' then [] :: r
    else
      match r with
      | [] => [[c]]
      | h :: t => (c :: h) :: t

/-- ASCII lowercase on a character code, modelling `str.lower()` on the
ASCII range the markers live in. -/
def lowerCode (n : Nat) : Nat :=
  if 65 ≤ n ∧ n ≤ 90 then n + 32 else n

/-- Lowercased character codes of a string. -/
def lowerCodes (s : String) : List Nat :=
  s.data.map fun c => lowerCode c.toNat

/-- Contiguous-sublist test, modelling Python's `marker in text`. -/
def listInfix (needle : List Nat) : List Nat → Bool
  | [] => needle.isEmpty
  | c :: rest => needle.isPrefixOf (c :: rest) || listInfix needle rest

/-- Embeds `S3Service._normalize_bucket_access` (s3.py lines 247-253) for
string-typed inputs; the `not isinstance(value, str)` branch is covered by
callers passing `none` through `normalizeBucketAccessOpt`. -/
def normalizeBucketAccess (value : String) : String :=
  let normalized : String := ⟨(chStrip value).data.map fun c => Char.ofNat (lowerCode c.toNat)⟩
  if normalized = BUCKET_ACCESS_NO_VIEW ∨ normalized = BUCKET_ACCESS_NO_DOWNLOAD ∨
      normalized = BUCKET_ACCESS_GOOD ∨ normalized = BUCKET_ACCESS_UNKNOWN then
    normalized
  else BUCKET_ACCESS_UNKNOWN

/-- Embeds `S3Service._normalize_bucket_access` including the
non-string branch (modelled as `none`), s3.py lines 247-249. -/
def normalizeBucketAccessOpt (value : Option String) : String :=
  match value with
  | none => BUCKET_ACCESS_UNKNOWN
  | some s => normalizeBucketAccess s

/-- Embeds `_is_sso_expired_error`: lowercase `f"{type(exc).__name__}: {exc}"`
and test whether any marker occurs as a substring. -/
def isSsoExpiredError (exc : PyExc) : Bool :=
  let text := lowerCodes (exc.excType ++ ": " ++ exc.msg)
  ssoExpiredMarkers.any fun marker => listInfix (lowerCodes marker) text

/-! ### C10: profile normalization (`S3Service._normalize_profiles`, s3.py 59-77) -/

/-- Loop body of `_normalize_profiles`: map the literal `"default"` to the
nil profile and append first occurrences only. -/
def normalizeStep (acc : List (Option String)) (profileName : String) : List (Option String) :=
  let p : Option String := if profileName = "default" then none else some profileName
  if p ∈ acc then acc else acc ++ [p]

/-- Embeds `S3Service._normalize_profiles` applied to the raw profile list
(either the caller-supplied list or `session.available_profiles`). -/
def normalizeProfiles (rawProfiles : List String) : List (Option String) :=
  let normalized := rawProfiles.foldl normalizeStep []
  if normalized = [] then [none] else normalized

theorem normalizeFold_nodup (raw : List String) (acc : List (Option String))
    (h : acc.Nodup) : (raw.foldl normalizeStep acc).Nodup := by
  induction raw generalizing acc with
  | nil => simpa using h
  | cons x xs ih =>
    simp only [List.foldl_cons]
    apply ih
    unfold normalizeStep
    by_cases hmem : (if x = "default" then (none : Option String) else some x) ∈ acc
    · simpa [hmem] using h
    · simp only [hmem, if_false]
      refine List.Nodup.append h (List.nodup_singleton _) ?_
      simpa [List.disjoint_singleton] using hmem

theorem normalizeFold_no_default (raw : List String) (acc : List (Option String))
    (h : some "default" ∉ acc) : some "default" ∉ raw.foldl normalizeStep acc := by
  induction raw generalizing acc with
  | nil => simpa using h
  | cons x xs ih =>
    simp only [List.foldl_cons]
    apply ih
    unfold normalizeStep
    by_cases hx : x = "default"
    · by_cases hmem : (if x = "default" then (none : Option String) else some x) ∈ acc
      · simpa [hmem] using h
      · simp only [hmem, if_false, List.mem_append, List.mem_singleton]
        rintro (hc | hc)
        · exact h hc
        · simp [hx] at hc
    · by_cases hmem : (if x = "default" then (none : Option String) else some x) ∈ acc
      · simpa [hmem] using h
      · simp only [hmem, if_false, List.mem_append, List.mem_singleton]
        rintro (hc | hc)
        · exact h hc
        · simp [hx] at hc
          exact hx hc.symm

theorem normalizeFold_mono (raw : List String) (acc : List (Option String))
    (p : Option String) (h : p ∈ acc) : p ∈ raw.foldl normalizeStep acc := by
  induction raw generalizing acc with
  | nil => simpa using h
  | cons x xs ih =>
    simp only [List.foldl_cons]
    apply ih
    unfold normalizeStep
    by_cases hmem : (if x = "default" then (none : Option String) else some x) ∈ acc
    · simpa [hmem] using h
    · simp [hmem, h]

theorem normalizeFold_default_mem (raw : List String) (acc : List (Option String))
    (h : "default" ∈ raw) : none ∈ raw.foldl normalizeStep acc := by
  induction raw generalizing acc with
  | nil => simp at h
  | cons x xs ih =>
    simp only [List.foldl_cons]
    rcases List.mem_cons.mp h with hx | hxs
    · subst hx
      apply normalizeFold_mono
      by_cases hmem : (none : Option String) ∈ acc
      · simp [normalizeStep, hmem]
      · simp [normalizeStep, hmem]
    · exact ih _ hxs

/-- C10: for every raw profile list fed to `_normalize_profiles`, the
normalized list is non-empty, duplicate-free, never contains the literal
name `"default"` (that name is mapped to the nil profile), and an empty
input yields exactly `[None]`. -/
theorem c10_normalize_profiles (raw : List String) :
    normalizeProfiles raw ≠ [] ∧
    (normalizeProfiles raw).Nodup ∧
    some "default" ∉ normalizeProfiles raw ∧
    ("default" ∈ raw → none ∈ normalizeProfiles raw) ∧
    (raw = [] → normalizeProfiles raw = [none]) := by
  unfold normalizeProfiles
  by_cases hres : raw.foldl normalizeStep [] = []
  · refine ⟨by simp [hres], by simp [hres], by simp [hres], ?_, by simp [hres]⟩
    intro hdef
    have := normalizeFold_default_mem raw [] hdef
    rw [hres] at this
    simp at this
  · refine ⟨by simp [hres], ?_, ?_, ?_, ?_⟩
    · simpa [hres] using normalizeFold_nodup raw [] List.nodup_nil
    · simpa [hres] using normalizeFold_no_default raw [] (by simp)
    · intro hdef
      simpa [hres] using normalizeFold_default_mem raw [] hdef
    · intro hraw
      subst hraw
      simp at hres

/-- Witness for C10 at a concrete input. -/
theorem c10_normalize_profiles_witness :
    normalizeProfiles ["default", "dev", "dev"] ≠ [] ∧
    (normalizeProfiles ["default", "dev", "dev"]).Nodup ∧
    some "default" ∉ normalizeProfiles ["default", "dev", "dev"] ∧
    none ∈ normalizeProfiles ["default", "dev", "dev"] := by
  have h := c10_normalize_profiles ["default", "dev", "dev"]
  exact ⟨h.1, h.2.1, h.2.2.1, h.2.2.2.1 (by decide)⟩

/-! ### C2: single-profile access probe
(`S3Service._probe_profile_access_for_bucket`, s3.py 258-301) -/

/-- Models one element of the `Contents` list of a `list_objects_v2`
response: either not a dict, or a dict whose `Key` field is the given
string (`none` models a missing or non-string `Key`). -/
inductive ContentsEntry where
  | notDict
  | dict (keyField : Option String)
deriving DecidableEq, Repr

/-- Key extraction from one entry (s3.py 270-276): skip non-dicts,
missing / non-string keys and empty keys. -/
def probeEntryKey (e : ContentsEntry) : Option String :=
  match e with
  | .notDict => none
  | .dict keyField =>
    match keyField with
    | some k => if k = "" then none else some k
    | none => none

/-- The key-collection loop over `contents[:10]` (s3.py 269-276). -/
def extractProbeKeys (contents : List ContentsEntry) : List String :=
  (contents.take 10).filterMap probeEntryKey

/-- Outcome of one `get_object` ranged read during the probe. -/
inductive GetOutcome where
  | ok
  | err (exc : PyExc)
deriving DecidableEq, Repr

/-- The sampled-read loop over `keys[:5]` (s3.py 280-301): first
successful 1-byte ranged read yields `good`; SSO-expired errors are
re-raised; exhausting all samples yields `no_download`. -/
def probeGetLoop (getObject : String → GetOutcome) : List String → Except PyExc String
  | [] => .ok BUCKET_ACCESS_NO_DOWNLOAD
  | key :: rest =>
    match getObject key with
    | .ok => .ok BUCKET_ACCESS_GOOD
    | .err exc =>
      if isSsoExpiredError exc then .error exc else probeGetLoop getObject rest

/-- Embeds `_probe_profile_access_for_bucket`.  The `list_objects_v2`
call and the per-key `get_object` calls are parameters; a `.error`
result models an exception propagating out of the probe. -/
def probeProfileAccessForBucket (listObjects : Except PyExc (List ContentsEntry))
    (getObject : String → GetOutcome) : Except PyExc String :=
  match listObjects with
  | .error exc =>
    if isSsoExpiredError exc then .error exc else .ok BUCKET_ACCESS_NO_VIEW
  | .ok contents =>
    let keys := extractProbeKeys contents
    if keys = [] then .ok BUCKET_ACCESS_GOOD
    else probeGetLoop getObject (keys.take 5)

theorem probeGetLoop_all_fail (getObject : String → GetOutcome) (keys : List String)
    (h : ∀ k ∈ keys, ∃ exc, getObject k = .err exc ∧ isSsoExpiredError exc = false) :
    probeGetLoop getObject keys = .ok BUCKET_ACCESS_NO_DOWNLOAD := by
  induction keys with
  | nil => rfl
  | cons k rest ih =>
    obtain ⟨exc, hg, hsso⟩ := h k (by simp)
    simp only [probeGetLoop, hg, hsso]
    simp only [Bool.false_eq_true, if_false]
    exact ih fun k' hk' => h k' (by simp [hk'])

theorem probeGetLoop_first_ok (getObject : String → GetOutcome)
    (pre : List String) (key : String) (post : List String)
    (hok : getObject key = .ok)
    (h : ∀ k ∈ pre, ∃ exc, getObject k = .err exc ∧ isSsoExpiredError exc = false) :
    probeGetLoop getObject (pre ++ key :: post) = .ok BUCKET_ACCESS_GOOD := by
  induction pre with
  | nil =>
    simp only [List.nil_append, probeGetLoop, hok]
  | cons k rest ih =>
    obtain ⟨exc, hg, hsso⟩ := h k (by simp)
    simp only [List.cons_append, probeGetLoop, hg, hsso]
    simp only [Bool.false_eq_true, if_false]
    exact ih fun k' hk' => h k' (by simp [hk'])

/-- C2 counterexample: when the 10-object listing fails with a
session-expired error the probe does not return `no_view` — it re-raises
the exception (s3.py 264-266), refuting the claim's unconditional
"returns NoView when the listing fails". -/
theorem c2_probe_counterexample :
    probeProfileAccessForBucket (.error (PyExc.mk "E" "sso token"))
      (fun _ => .ok) = .error (PyExc.mk "E" "sso token") ∧
    (Except.error (PyExc.mk "E" "sso token") : Except PyExc String)
      ≠ .ok BUCKET_ACCESS_NO_VIEW := by
  refine ⟨rfl, ?_⟩
  intro h
  exact Except.noConfusion h

/-- C2 as amended: a probe returns `no_view` when the listing fails with
a non-session-expired error (a session-expired listing error propagates
instead); `good` when the listing succeeds with no keys; `good` when a
sampled key admits the 1-byte ranged read and every earlier sampled read
failed with a non-session-expired error; and `no_download` when all
sampled reads fail with non-session-expired errors. -/
theorem c2_probe_amended (listObjects : Except PyExc (List ContentsEntry))
    (getObject : String → GetOutcome) :
    (∀ exc, listObjects = .error exc → isSsoExpiredError exc = false →
      probeProfileAccessForBucket listObjects getObject = .ok BUCKET_ACCESS_NO_VIEW) ∧
    (∀ exc, listObjects = .error exc → isSsoExpiredError exc = true →
      probeProfileAccessForBucket listObjects getObject = .error exc) ∧
    (∀ contents, listObjects = .ok contents → extractProbeKeys contents = [] →
      probeProfileAccessForBucket listObjects getObject = .ok BUCKET_ACCESS_GOOD) ∧
    (∀ contents, listObjects = .ok contents → extractProbeKeys contents ≠ [] →
      (∀ k ∈ (extractProbeKeys contents).take 5,
        ∃ exc, getObject k = .err exc ∧ isSsoExpiredError exc = false) →
      probeProfileAccessForBucket listObjects getObject = .ok BUCKET_ACCESS_NO_DOWNLOAD) ∧
    (∀ contents pre key post, listObjects = .ok contents →
      (extractProbeKeys contents).take 5 = pre ++ key :: post →
      getObject key = .ok →
      (∀ k ∈ pre, ∃ exc, getObject k = .err exc ∧ isSsoExpiredError exc = false) →
      probeProfileAccessForBucket listObjects getObject = .ok BUCKET_ACCESS_GOOD) := by
  refine ⟨?_, ?_, ?_, ?_, ?_⟩
  · intro exc hl hsso
    subst hl
    simp [probeProfileAccessForBucket, hsso]
  · intro exc hl hsso
    subst hl
    simp [probeProfileAccessForBucket, hsso]
  · intro contents hl hkeys
    subst hl
    simp [probeProfileAccessForBucket, hkeys]
  · intro contents hl hkeys hfail
    subst hl
    simp only [probeProfileAccessForBucket, hkeys, if_false]
    exact probeGetLoop_all_fail getObject _ hfail
  · intro contents pre key post hl hsplit hok hfail
    subst hl
    have hne : extractProbeKeys contents ≠ [] := by
      intro h0
      rw [h0] at hsplit
      simp at hsplit
    simp only [probeProfileAccessForBucket, hne, if_false]
    rw [hsplit]
    exact probeGetLoop_first_ok getObject pre key post hok hfail

/-- Witness for C2's amended theorem at concrete inputs: one listed key
whose ranged read is denied yields `no_download`. -/
theorem c2_probe_amended_witness :
    probeProfileAccessForBucket (.ok [ContentsEntry.dict (some "k")])
      (fun _ => .err (PyExc.mk "ClientError" "AccessDenied"))
      = .ok BUCKET_ACCESS_NO_DOWNLOAD := by
  have h := (c2_probe_amended (.ok [ContentsEntry.dict (some "k")])
    (fun _ => .err (PyExc.mk "ClientError" "AccessDenied"))).2.2.2.1
  refine h [ContentsEntry.dict (some "k")] rfl (by decide) ?_
  intro k hk
  exact ⟨PyExc.mk "ClientError" "AccessDenied", rfl, by decide⟩

/-! ### C5: credential retry coordinator
(`S3Browser._call_with_sso_retry`, app.py 1104-1119) -/

/-- Embeds `_call_with_sso_retry`.  `operation i` is the outcome of the
`i`-th invocation of the wrapped operation; `reauthOk` is the result of
`_reauth_sso_profile`.  Returns the wrapper's outcome together with the
number of times the operation was invoked. -/
def callWithSsoRetry {α : Type} (reauthOk : Bool)
    (operation : Nat → Except PyExc α) : Except PyExc α × Nat :=
  match operation 0 with
  | .ok v => (.ok v, 1)
  | .error exc =>
    if isSsoExpiredError exc then
      if reauthOk then (operation 1, 2) else (.error exc, 1)
    else (.error exc, 1)

/-- C5: a non-matching error propagates immediately and unmodified after a
single invocation; after a matching error and successful re-auth the
operation is retried exactly once and the retry's outcome (success or
failure) is returned; on failed re-auth the original error propagates. -/
theorem c5_retry_coordinator {α : Type} (reauthOk : Bool)
    (operation : Nat → Except PyExc α) :
    (∀ v, operation 0 = .ok v → callWithSsoRetry reauthOk operation = (.ok v, 1)) ∧
    (∀ exc, operation 0 = .error exc → isSsoExpiredError exc = false →
      callWithSsoRetry reauthOk operation = (.error exc, 1)) ∧
    (∀ exc, operation 0 = .error exc → isSsoExpiredError exc = true → reauthOk = true →
      callWithSsoRetry reauthOk operation = (operation 1, 2)) ∧
    (∀ exc, operation 0 = .error exc → isSsoExpiredError exc = true → reauthOk = false →
      callWithSsoRetry reauthOk operation = (.error exc, 1)) := by
  refine ⟨?_, ?_, ?_, ?_⟩
  · intro v h
    simp [callWithSsoRetry, h]
  · intro exc h hsso
    simp [callWithSsoRetry, h, hsso]
  · intro exc h hsso hre
    simp [callWithSsoRetry, h, hsso, hre]
  · intro exc h hsso hre
    simp [callWithSsoRetry, h, hsso, hre]

/-- Witness for C5 at a concrete input: an access-denied error is not
session-expired and propagates unmodified with no retry. -/
theorem c5_retry_coordinator_witness :
    callWithSsoRetry true (fun _ => (.error (PyExc.mk "ClientError" "AccessDenied") : Except PyExc Nat))
      = (.error (PyExc.mk "ClientError" "AccessDenied"), 1) :=
  (c5_retry_coordinator true
    (fun _ => (.error (PyExc.mk "ClientError" "AccessDenied") : Except PyExc Nat))).2.1
    (PyExc.mk "ClientError" "AccessDenied") rfl (by decide)

/-! ### C8: recursive deep scan (`S3Service._scan_prefix_recursive`, s3.py 782-851) -/

/-- Models one element of a `list_objects_v2` `Contents` page during the
deep scan; `key = ""` models a missing/falsy `Key`. -/
structure ScanEntry where
  key : String
  size : Nat
  lastModified : Option Nat
deriving DecidableEq, Repr

/-- Accumulator of `_scan_prefix_recursive`; `subdirs` models the Python
set as an insertion-ordered duplicate-free list. -/
structure ScanState where
  fileCount : Nat
  totalSize : Nat
  latestModified : Option Nat
  subdirs : List String
  scanned : Nat
  truncated : Bool
deriving DecidableEq, Repr

/-- `base_prefix` normalization at s3.py 790-792: append a trailing slash
to a non-empty prefix that lacks one. -/
def scanBase (pfx : String) : String :=
  if pfx ≠ "" ∧ ¬ chEndsWith pfx "/" then pfx ++ "/" else pfx

/-- `subdirs.add(path)` on the ordered-list model of the set. -/
def addSubdir (subdirs : List String) (path : String) : List String :=
  if path ∈ subdirs then subdirs else subdirs ++ [path]

/-- The subdirectory-accumulation block at s3.py 832-844: strip the base
prefix, and for each ancestor directory of the key insert its relative
path. -/
def addEntrySubdirs (base : String) (key : String) (subdirs : List String) : List String :=
  let relative := if base ≠ "" ∧ chStartsWith key base then chDrop key (chLen base) else key
  if chContains relative '/' then
    let parts := ((splitSlash relative.data).dropLast).map fun l => (⟨l⟩ : String)
    (parts.foldl (fun st part =>
      if part = "" then st
      else
        let path := st.2 ++ part ++ "/"
        (addSubdir st.1 path, path)) (subdirs, "")).1
  else subdirs

/-- Whether an entry passes the three skip checks at s3.py 816-822 and is
counted as a file. -/
def scanCountable (base : String) (e : ScanEntry) : Bool :=
  if e.key = "" then false
  else if chEndsWith e.key "/" then false
  else if base ≠ "" ∧ e.key = base then false
  else true

/-- Per-entry body of the scan loop (s3.py 816-844), without the
`max_keys` check. -/
def scanProcessEntry (base : String) (st : ScanState) (e : ScanEntry) : ScanState :=
  if e.key = "" then st
  else if chEndsWith e.key "/" then st
  else if base ≠ "" ∧ e.key = base then st
  else
    { st with
      fileCount := st.fileCount + 1
      totalSize := st.totalSize + e.size
      scanned := st.scanned + 1
      latestModified :=
        match e.lastModified, st.latestModified with
        | some lm, none => some lm
        | some lm, some cur => if cur < lm then some lm else some cur
        | none, cur => cur
      subdirs := addEntrySubdirs base e.key st.subdirs }

/-- The `for entry in contents` loop (s3.py 811-844): before each entry
the `scanned >= max_keys` ceiling is checked; hitting it sets
`truncated` and `limit_reached` (the returned flag) and stops mid-page. -/
def scanEntriesGo (base : String) (maxKeys : Option Nat) :
    ScanState → List ScanEntry → ScanState × Bool
  | st, [] => (st, false)
  | st, e :: rest =>
    match maxKeys with
    | some m =>
      if m ≤ st.scanned then ({ st with truncated := true }, true)
      else scanEntriesGo base maxKeys (scanProcessEntry base st e) rest
    | none => scanEntriesGo base maxKeys (scanProcessEntry base st e) rest

/-- The pagination `while True` loop (s3.py 801-850): pages are consumed
in continuation order until `limit_reached` or the listing is exhausted. -/
def scanPagesGo (base : String) (maxKeys : Option Nat) :
    ScanState → List (List ScanEntry) → ScanState
  | st, [] => st
  | st, page :: rest =>
    let r := scanEntriesGo base maxKeys st page
    if r.2 then r.1 else scanPagesGo base maxKeys r.1 rest

/-- Embeds `_scan_prefix_recursive`: the paged `Contents` listings are a
parameter; returns `(file_count, len(subdirs), total_size,
latest_modified, scanned, truncated)` as at s3.py 851. -/
def scanPrefixRecursive (pages : List (List ScanEntry)) (pfx : String)
    (maxKeys : Option Nat) : Nat × Nat × Nat × Option Nat × Nat × Bool :=
  let base := scanBase pfx
  let st := scanPagesGo base maxKeys ⟨0, 0, none, [], 0, false⟩ pages
  (st.fileCount, st.subdirs.length, st.totalSize, st.latestModified, st.scanned, st.truncated)

/-- Number of countable objects on one page. -/
def countCountable (base : String) (entries : List ScanEntry) : Nat :=
  (entries.filter (scanCountable base)).length

/-- Number of countable objects across all pages. -/
def totalCountable (base : String) (pages : List (List ScanEntry)) : Nat :=
  (pages.map (countCountable base)).sum

theorem scanProcessEntry_skip (base : String) (st : ScanState) (e : ScanEntry)
    (h : scanCountable base e = false) : scanProcessEntry base st e = st := by
  unfold scanCountable at h
  unfold scanProcessEntry
  split_ifs at h ⊢ <;> simp_all

theorem scanProcessEntry_count (base : String) (st : ScanState) (e : ScanEntry)
    (h : scanCountable base e = true) :
    (scanProcessEntry base st e).scanned = st.scanned + 1 ∧
    (scanProcessEntry base st e).fileCount = st.fileCount + 1 ∧
    (scanProcessEntry base st e).truncated = st.truncated := by
  unfold scanCountable at h
  unfold scanProcessEntry
  split_ifs at h ⊢
  simp_all

theorem countCountable_cons (base : String) (e : ScanEntry) (rest : List ScanEntry) :
    countCountable base (e :: rest) =
      (if scanCountable base e then 1 else 0) + countCountable base rest := by
  simp only [countCountable, List.filter_cons]
  split <;> simp [Nat.add_comm]

theorem scanEntriesGo_spec (base : String) (m : Nat) (entries : List ScanEntry)
    (st : ScanState) (hfc : st.fileCount = st.scanned) (hle : st.scanned ≤ m) :
    (scanEntriesGo base (some m) st entries).1.fileCount
      = (scanEntriesGo base (some m) st entries).1.scanned ∧
    (if m < st.scanned + countCountable base entries
     then (scanEntriesGo base (some m) st entries).1.scanned = m ∧
          (scanEntriesGo base (some m) st entries).1.truncated = true ∧
          (scanEntriesGo base (some m) st entries).2 = true
     else (scanEntriesGo base (some m) st entries).1.scanned
            = st.scanned + countCountable base entries ∧
          ((scanEntriesGo base (some m) st entries).2 = true →
            (scanEntriesGo base (some m) st entries).1.scanned = m ∧
            (scanEntriesGo base (some m) st entries).1.truncated = true)) := by
  induction entries generalizing st with
  | nil =>
    have hcount : countCountable base ([] : List ScanEntry) = 0 := rfl
    simp only [scanEntriesGo, hcount, Nat.add_zero]
    have hnot : ¬ m < st.scanned := Nat.not_lt.mpr hle
    simp [hnot, hfc]
  | cons e rest ih =>
    rw [countCountable_cons]
    by_cases hstop : m ≤ st.scanned
    · have heq : st.scanned = m := Nat.le_antisymm hle hstop
      have hred : scanEntriesGo base (some m) st (e :: rest)
          = ({ st with truncated := true }, true) := by
        simp [scanEntriesGo, hstop]
      rw [hred]
      refine ⟨hfc, ?_⟩
      by_cases hgt : m < st.scanned + ((if scanCountable base e then 1 else 0) + countCountable base rest)
      · rw [if_pos hgt]
        exact ⟨heq, rfl, rfl⟩
      · rw [if_neg hgt]
        have hcz : (if scanCountable base e then 1 else 0) + countCountable base rest = 0 := by
          omega
        constructor
        · have hsc : ({ st with truncated := true } : ScanState).scanned = st.scanned := rfl
          rw [hsc]
          omega
        · intro _
          exact ⟨heq, rfl⟩
    · have hlt : st.scanned < m := Nat.lt_of_not_le hstop
      have hstop' : ¬ m ≤ st.scanned := hstop
      simp only [scanEntriesGo, hstop', if_false]
      by_cases hc : scanCountable base e = true
      · obtain ⟨hs, hf, _⟩ := scanProcessEntry_count base st e hc
        have hfc' : (scanProcessEntry base st e).fileCount = (scanProcessEntry base st e).scanned := by
          rw [hs, hf, hfc]
        have hle' : (scanProcessEntry base st e).scanned ≤ m := by
          rw [hs]; omega
        have h2 := ih (scanProcessEntry base st e) hfc' hle'
        refine ⟨h2.1, ?_⟩
        have harith : st.scanned + ((if scanCountable base e then 1 else 0) + countCountable base rest)
            = (scanProcessEntry base st e).scanned + countCountable base rest := by
          rw [hs]; simp [hc]; omega
        rw [harith]
        exact h2.2
      · simp only [Bool.not_eq_true] at hc
        rw [scanProcessEntry_skip base st e hc]
        have h2 := ih st hfc hle
        refine ⟨h2.1, ?_⟩
        have harith : st.scanned + ((if scanCountable base e then 1 else 0) + countCountable base rest)
            = st.scanned + countCountable base rest := by
          simp [hc]
        rw [harith]
        exact h2.2

theorem scanPagesGo_spec (base : String) (m : Nat) (pages : List (List ScanEntry))
    (st : ScanState) (hfc : st.fileCount = st.scanned) (hle : st.scanned ≤ m)
    (hcross : m < st.scanned + totalCountable base pages) :
    (scanPagesGo base (some m) st pages).fileCount
      = (scanPagesGo base (some m) st pages).scanned ∧
    (scanPagesGo base (some m) st pages).scanned = m ∧
    (scanPagesGo base (some m) st pages).truncated = true := by
  induction pages generalizing st with
  | nil =>
    exfalso
    simp only [totalCountable, List.map_nil, List.sum_nil, Nat.add_zero] at hcross
    omega
  | cons page rest ih =>
    have h1 := scanEntriesGo_spec base m page st hfc hle
    simp only [scanPagesGo]
    by_cases hpage : m < st.scanned + countCountable base page
    · rw [if_pos (by simp [hpage] at h1; exact h1.2.2.2)]
      have h1' := h1
      rw [if_pos hpage] at h1'
      exact ⟨h1'.1, h1'.2.1, h1'.2.2.1⟩
    · have h1' := h1
      rw [if_neg hpage] at h1'
      by_cases hlr : (scanEntriesGo base (some m) st page).2 = true
      · rw [if_pos hlr]
        exact ⟨h1'.1, (h1'.2.2 hlr).1, (h1'.2.2 hlr).2⟩
      · rw [if_neg hlr]
        apply ih
        · exact h1'.1
        · rw [h1'.2.1]; omega
        · rw [h1'.2.1]
          have : totalCountable base (page :: rest)
              = countCountable base page + totalCountable base rest := by
            simp [totalCountable]
          omega

/-- C8: for every paged listing containing more than `m` countable
objects, scanning with `max_keys = m` stops at exactly `m` scanned
objects (even mid-page), reports `truncated = true`, and the file count
does not exceed `m`. -/
theorem c8_deep_scan_truncation (pages : List (List ScanEntry)) (pfx : String) (m : Nat)
    (h : m < totalCountable (scanBase pfx) pages) :
    (scanPrefixRecursive pages pfx (some m)).2.2.2.2.1 = m ∧
    (scanPrefixRecursive pages pfx (some m)).2.2.2.2.2 = true ∧
    (scanPrefixRecursive pages pfx (some m)).1 ≤ m := by
  have hspec := scanPagesGo_spec (scanBase pfx) m pages ⟨0, 0, none, [], 0, false⟩
    rfl (Nat.zero_le m) (by simpa using h)
  unfold scanPrefixRecursive
  dsimp only
  refine ⟨hspec.2.1, hspec.2.2, ?_⟩
  rw [hspec.1, hspec.2.1]

/-- Witness for C8 at a concrete input: two objects, `max_keys = 1`. -/
theorem c8_deep_scan_truncation_witness :
    (scanPrefixRecursive [[⟨"a", 1, none⟩, ⟨"b", 2, none⟩]] "" (some 1)).2.2.2.2.1 = 1 ∧
    (scanPrefixRecursive [[⟨"a", 1, none⟩, ⟨"b", 2, none⟩]] "" (some 1)).2.2.2.2.2 = true ∧
    (scanPrefixRecursive [[⟨"a", 1, none⟩, ⟨"b", 2, none⟩]] "" (some 1)).1 ≤ 1 :=
  c8_deep_scan_truncation [[⟨"a", 1, none⟩, ⟨"b", 2, none⟩]] "" 1 (by decide)

/-! ### C1 and C3: access resolution and ranking
(`S3Service.select_best_bucket_profiles`, s3.py 180-245) -/

/-- Association-list lookup, modelling Python `dict.get` (first matching
key wins; with the dict-shaped lists built below keys are unique). -/
def alistGet? {κ ν : Type} [DecidableEq κ] : List (κ × ν) → κ → Option ν
  | [], _ => none
  | (k, v) :: rest, key => if k = key then some v else alistGet? rest key

/-- Association-list insert-or-overwrite, modelling `dict[k] = v`: an
existing key keeps its position, a new key is appended at the end. -/
def alistSet {κ ν : Type} [DecidableEq κ] : List (κ × ν) → κ → ν → List (κ × ν)
  | [], key, v => [(key, v)]
  | (k, v') :: rest, key, v =>
    if k = key then (k, v) :: rest else (k, v') :: alistSet rest key v

/-- One step of the `by_name` accumulation at s3.py 183-187:
`by_name.setdefault(name, [])` and append the profile if unseen. -/
def byNameInsert (acc : List (String × List (Option String))) (name : String)
    (profile : Option String) : List (String × List (Option String)) :=
  match acc with
  | [] => [(name, [profile])]
  | (n, ps) :: rest =>
    if n = name then (n, if profile ∈ ps then ps else ps ++ [profile]) :: rest
    else (n, ps) :: byNameInsert rest name profile

/-- The `by_name` ordered dict of s3.py 183-187: bucket name to the
profiles that listed it, both in first-appearance order. -/
def buildByName (buckets : List BucketInfo) : List (String × List (Option String)) :=
  buckets.foldl (fun acc b => byNameInsert acc b.name b.profile) []

/-- The `profile_rank` dict of s3.py 192 (`{profile: index}` built by
enumeration; a duplicated profile keeps the last index, as in Python). -/
def profileRankMap (probeProfiles : List (Option String)) : List (Option String × Nat) :=
  probeProfiles.enum.foldl (fun acc iv => alistSet acc iv.2 iv.1) []

/-- `profile_rank.get(profile, len(profile_rank))`. -/
def profileRank (rankMap : List (Option String × Nat)) (p : Option String) : Nat :=
  (alistGet? rankMap p).getD rankMap.length

/-- The `probe_access` mapping of s3.py 206-213: a probe that raised is
scored `no_view`, a returned string is normalized. -/
def probeAccess (probe : String → Option String → Except Unit String)
    (name : String) (p : Option String) : String :=
  match probe name p with
  | .error _ => BUCKET_ACCESS_NO_VIEW
  | .ok s => normalizeBucketAccess s

/-- Python tuple `<` on the 4-tuple ranking key. -/
def key4Lt (a b : Nat × Nat × Nat × Int) : Bool :=
  decide (a.1 < b.1) ||
    (decide (a.1 = b.1) && (decide (a.2.1 < b.2.1) ||
      (decide (a.2.1 = b.2.1) && (decide (a.2.2.1 < b.2.2.1) ||
        (decide (a.2.2.1 = b.2.2.1) && decide (a.2.2.2 < b.2.2.2))))))

/-- Python tuple `<` on the 2-tuple fallback key. -/
def key2Lt (a b : Nat × Int) : Bool :=
  decide (a.1 < b.1) || (decide (a.1 = b.1) && decide (a.2 < b.2))

/-- Python `max(seq, key=f)`: scan left to right, replacing the current
best only on strict improvement, so the first maximal element wins. -/
def pyFoldMax {α κ : Type} (ltB : κ → κ → Bool) (key : α → κ) : α → List α → α
  | x, [] => x
  | x, y :: l => pyFoldMax ltB key (if ltB (key x) (key y) then y else x) l

/-- The `profile_key` closure at s3.py 222-228:
`(level, non_default, listed, -rank)`. -/
def profileKey (probeAcc : String → Option String → String)
    (rankMap : List (Option String × Nat)) (listedProfiles : List (Option String))
    (name : String) (p : Option String) : Nat × Nat × Nat × Int :=
  (bucketAccessLevel (probeAcc name p),
   if p.isSome then 1 else 0,
   if p ∈ listedProfiles then 1 else 0,
   -(profileRank rankMap p : Int))

/-- The fallback lambda key at s3.py 236-239:
`(profile is not None, -rank)`. -/
def fallbackKey (rankMap : List (Option String × Nat)) (p : Option String) : Nat × Int :=
  (if p.isSome then 1 else 0, -(profileRank rankMap p : Int))

/-- `max(ranked_profiles, key=profile_key)` (s3.py 230); the empty case
is unreachable because `ranked_profiles` is always non-empty. -/
def primaryWinner (probeAcc : String → Option String → String)
    (rankMap : List (Option String × Nat)) (listedProfiles : List (Option String))
    (name : String) (ranked : List (Option String)) : Option String :=
  match ranked with
  | [] => none
  | x :: rest => pyFoldMax key4Lt (profileKey probeAcc rankMap listedProfiles name) x rest

/-- `max(fallback_profiles, key=...)` (s3.py 234-240); the empty case is
unreachable. -/
def fallbackWinner (rankMap : List (Option String × Nat))
    (fallbackProfiles : List (Option String)) : Option String :=
  match fallbackProfiles with
  | [] => none
  | x :: rest => pyFoldMax key2Lt (fallbackKey rankMap) x rest

/-- The per-bucket resolution body at s3.py 216-244. -/
def resolveBucket (probeAcc : String → Option String → String)
    (probeProfiles : List (Option String)) (rankMap : List (Option String × Nat))
    (entry : String × List (Option String)) : BucketInfo :=
  let name := entry.1
  let listedProfiles := entry.2
  let ranked :=
    if probeProfiles = [] then
      (if listedProfiles = [] then [none] else listedProfiles)
    else probeProfiles
  let best := primaryWinner probeAcc rankMap listedProfiles name ranked
  let bestAccess := probeAcc name best
  if bucketAccessLevel bestAccess ≤ 0 then
    let fallbackProfiles := if listedProfiles = [] then ranked else listedProfiles
    BucketInfo.mk name (fallbackWinner rankMap fallbackProfiles) BUCKET_ACCESS_NO_VIEW false
  else
    BucketInfo.mk name best bestAccess false

/-- Embeds `select_best_bucket_profiles` (s3.py 180-245): probe outcomes
are a parameter (keyed by bucket name and profile, like the gathered
`probe_access` dict, hence independent of probe completion order). -/
def selectBestBucketProfiles (profiles : List (Option String))
    (probe : String → Option String → Except Unit String)
    (buckets : List BucketInfo) : List BucketInfo :=
  let byName := buildByName buckets
  if byName = [] then []
  else
    let probeProfiles := if profiles = [] then [none] else profiles
    byName.map (resolveBucket (probeAccess probe) probeProfiles (profileRankMap probeProfiles))

/-- Maximum access level observed across the probed profiles for one
bucket (the quantity the spec compares the resolved record against). -/
def maxProbeLevel (probeAcc : String → Option String → String) (name : String)
    (ps : List (Option String)) : Nat :=
  ps.foldl (fun m p => max m (bucketAccessLevel (probeAcc name p))) 0

theorem key4Lt_asymm (a b : Nat × Nat × Nat × Int) :
    key4Lt a b = true → key4Lt b a = false := by
  obtain ⟨a1, a2, a3, a4⟩ := a
  obtain ⟨b1, b2, b3, b4⟩ := b
  simp only [key4Lt, Bool.or_eq_true, Bool.and_eq_true, decide_eq_true_eq,
    Bool.or_eq_false_iff, Bool.and_eq_false_iff, decide_eq_false_iff_not]
  omega

theorem key4Lt_mix (a b c : Nat × Nat × Nat × Int) :
    key4Lt a b = true → key4Lt c b = false → key4Lt a c = true := by
  obtain ⟨a1, a2, a3, a4⟩ := a
  obtain ⟨b1, b2, b3, b4⟩ := b
  obtain ⟨c1, c2, c3, c4⟩ := c
  simp only [key4Lt, Bool.or_eq_true, Bool.and_eq_true, decide_eq_true_eq,
    Bool.or_eq_false_iff, Bool.and_eq_false_iff, decide_eq_false_iff_not]
  omega

theorem key2Lt_asymm (a b : Nat × Int) :
    key2Lt a b = true → key2Lt b a = false := by
  obtain ⟨a1, a2⟩ := a
  obtain ⟨b1, b2⟩ := b
  simp only [key2Lt, Bool.or_eq_true, Bool.and_eq_true, decide_eq_true_eq,
    Bool.or_eq_false_iff, Bool.and_eq_false_iff, decide_eq_false_iff_not]
  omega

theorem key2Lt_mix (a b c : Nat × Int) :
    key2Lt a b = true → key2Lt c b = false → key2Lt a c = true := by
  obtain ⟨a1, a2⟩ := a
  obtain ⟨b1, b2⟩ := b
  obtain ⟨c1, c2⟩ := c
  simp only [key2Lt, Bool.or_eq_true, Bool.and_eq_true, decide_eq_true_eq,
    Bool.or_eq_false_iff, Bool.and_eq_false_iff, decide_eq_false_iff_not]
  omega

theorem pyFoldMax_mem {α κ : Type} (ltB : κ → κ → Bool) (key : α → κ)
    (x : α) (l : List α) : pyFoldMax ltB key x l ∈ x :: l := by
  induction l generalizing x with
  | nil => simp [pyFoldMax]
  | cons y l ih =>
    simp only [pyFoldMax]
    by_cases h : ltB (key x) (key y) = true
    · rw [if_pos h]
      have := ih y
      rcases List.mem_cons.mp this with h1 | h1
      · simp [h1]
      · simp [h1]
    · rw [if_neg h]
      have := ih x
      rcases List.mem_cons.mp this with h1 | h1
      · simp [h1]
      · simp [h1]

theorem pyFoldMax_not_lt {α κ : Type} (ltB : κ → κ → Bool) (key : α → κ)
    (hasymm : ∀ a b, ltB a b = true → ltB b a = false)
    (hmix : ∀ a b c, ltB a b = true → ltB c b = false → ltB a c = true)
    (x : α) (l : List α) :
    ∀ y ∈ x :: l, ltB (key (pyFoldMax ltB key x l)) (key y) = false := by
  induction l generalizing x with
  | nil =>
    intro y hy
    rcases List.mem_cons.mp hy with rfl | h1
    · simp only [pyFoldMax]
      cases hb : ltB (key y) (key y)
      · rfl
      · have h2 := hasymm _ _ hb
        rw [hb] at h2
        exact h2
    · simp at h1
  | cons y l ih =>
    intro z hz
    by_cases hxy : ltB (key x) (key y) = true
    · simp only [pyFoldMax, hxy, if_true]
      have hall := ih y
      rcases List.mem_cons.mp hz with rfl | hz'
      · cases hMz : ltB (key (pyFoldMax ltB key y l)) (key z)
        · rfl
        · have h2 := hmix _ _ _ hMz (hasymm _ _ hxy)
          have h3 := hall y (by simp)
          rw [h3] at h2
          exact absurd h2 (by simp)
      · exact hall z hz'
    · have hxy' : ltB (key x) (key y) = false := by
        cases hb : ltB (key x) (key y)
        · rfl
        · exact absurd hb hxy
      simp only [pyFoldMax, hxy', Bool.false_eq_true, if_false]
      have hall := ih x
      rcases List.mem_cons.mp hz with rfl | hz'
      · exact hall z (by simp)
      · rcases List.mem_cons.mp hz' with rfl | hz''
        · cases hMz : ltB (key (pyFoldMax ltB key x l)) (key z)
          · rfl
          · have h2 := hmix _ _ _ hMz hxy'
            have h3 := hall x (by simp)
            rw [h3] at h2
            exact absurd h2 (by simp)
        · exact hall z (by simp [hz''])

theorem foldlMax_le {α : Type} (f : α → Nat) (l : List α) (init c : Nat)
    (hi : init ≤ c) (h : ∀ a ∈ l, f a ≤ c) :
    l.foldl (fun m a => max m (f a)) init ≤ c := by
  induction l generalizing init with
  | nil => simpa using hi
  | cons a l ih =>
    simp only [List.foldl_cons]
    exact ih _ (by
      have := h a (by simp)
      omega) (fun b hb => h b (by simp [hb]))

theorem foldlMax_ge_init {α : Type} (f : α → Nat) (l : List α) (init : Nat) :
    init ≤ l.foldl (fun m a => max m (f a)) init := by
  induction l generalizing init with
  | nil => simp
  | cons a l ih =>
    simp only [List.foldl_cons]
    have := ih (max init (f a))
    omega

theorem foldlMax_ge_mem {α : Type} (f : α → Nat) (l : List α) (init : Nat)
    (a : α) (ha : a ∈ l) : f a ≤ l.foldl (fun m a => max m (f a)) init := by
  induction l generalizing init with
  | nil => simp at ha
  | cons b l ih =>
    simp only [List.foldl_cons]
    rcases List.mem_cons.mp ha with rfl | ha'
    · have := foldlMax_ge_init f l (max init (f a))
      omega
    · exact ih _ ha'

theorem key4Lt_fst (a b : Nat × Nat × Nat × Int) (h : a.1 < b.1) :
    key4Lt a b = true := by
  obtain ⟨a1, a2, a3, a4⟩ := a
  obtain ⟨b1, b2, b3, b4⟩ := b
  simp only [key4Lt, Bool.or_eq_true, Bool.and_eq_true, decide_eq_true_eq]
  simp at h
  omega

theorem resolveBucket_spec (probeAcc : String → Option String → String)
    (probeProfiles : List (Option String)) (rankMap : List (Option String × Nat))
    (entry : String × List (Option String)) (hne : probeProfiles ≠ []) :
    (resolveBucket probeAcc probeProfiles rankMap entry).name = entry.1 ∧
    bucketAccessLevel (resolveBucket probeAcc probeProfiles rankMap entry).access
      = maxProbeLevel probeAcc entry.1 probeProfiles := by
  obtain ⟨name, listedProfiles⟩ := entry
  obtain ⟨x, rest, rfl⟩ : ∃ x rest, probeProfiles = x :: rest := by
    cases probeProfiles with
    | nil => exact absurd rfl hne
    | cons x rest => exact ⟨x, rest, rfl⟩
  have hcons : (x :: rest : List (Option String)) ≠ [] := by simp
  set k := profileKey probeAcc rankMap listedProfiles name with hk
  set w := pyFoldMax key4Lt k x rest with hw
  have hwmem : w ∈ x :: rest := pyFoldMax_mem key4Lt k x rest
  have hwmax := pyFoldMax_not_lt key4Lt k key4Lt_asymm key4Lt_mix x rest
  have hlevels : ∀ p ∈ x :: rest,
      bucketAccessLevel (probeAcc name p) ≤ bucketAccessLevel (probeAcc name w) := by
    intro p hp
    by_contra hgt
    have hlt : (k w).1 < (k p).1 := by
      simp only [hk, profileKey]
      omega
    have := key4Lt_fst (k w) (k p) hlt
    rw [hwmax p hp] at this
    exact absurd this (by simp)
  have hmax_le : maxProbeLevel probeAcc name (x :: rest)
      ≤ bucketAccessLevel (probeAcc name w) := by
    unfold maxProbeLevel
    exact foldlMax_le (fun p => bucketAccessLevel (probeAcc name p)) (x :: rest) 0
      (bucketAccessLevel (probeAcc name w)) (Nat.zero_le _) hlevels
  have hmax_ge : bucketAccessLevel (probeAcc name w)
      ≤ maxProbeLevel probeAcc name (x :: rest) := by
    unfold maxProbeLevel
    exact foldlMax_ge_mem (fun p => bucketAccessLevel (probeAcc name p)) (x :: rest) 0 w hwmem
  have hmaxeq : maxProbeLevel probeAcc name (x :: rest)
      = bucketAccessLevel (probeAcc name w) := Nat.le_antisymm hmax_le hmax_ge
  unfold resolveBucket
  simp only [hcons, if_false]
  have hwin : primaryWinner probeAcc rankMap listedProfiles name (x :: rest) = w := rfl
  by_cases hlow : bucketAccessLevel (probeAcc name
      (primaryWinner probeAcc rankMap listedProfiles name (x :: rest))) ≤ 0
  · rw [if_pos hlow]
    refine ⟨rfl, ?_⟩
    show bucketAccessLevel BUCKET_ACCESS_NO_VIEW = maxProbeLevel probeAcc name (x :: rest)
    rw [hwin] at hlow
    have hz : bucketAccessLevel BUCKET_ACCESS_NO_VIEW = 0 := by decide
    omega
  · rw [if_neg hlow]
    refine ⟨rfl, ?_⟩
    show bucketAccessLevel (probeAcc name
      (primaryWinner probeAcc rankMap listedProfiles name (x :: rest)))
        = maxProbeLevel probeAcc name (x :: rest)
    rw [hwin, hmaxeq]

theorem byNameInsert_keys (acc : List (String × List (Option String)))
    (name : String) (profile : Option String) :
    (byNameInsert acc name profile).map Prod.fst =
      if name ∈ acc.map Prod.fst then acc.map Prod.fst
      else acc.map Prod.fst ++ [name] := by
  induction acc with
  | nil => simp [byNameInsert]
  | cons hd tl ih =>
    obtain ⟨n, ps⟩ := hd
    by_cases h : n = name
    · subst h
      simp [byNameInsert]
    · simp only [byNameInsert, h, if_false, List.map_cons, ih]
      by_cases hmem : name ∈ tl.map Prod.fst
      · simp [hmem, h, Ne.symm h]
      · simp [hmem, h, Ne.symm h]

theorem buildByNameAux_keys_mem (buckets : List BucketInfo)
    (acc : List (String × List (Option String))) (n : String) :
    (n ∈ (buckets.foldl (fun acc b => byNameInsert acc b.name b.profile) acc).map Prod.fst
      ↔ n ∈ acc.map Prod.fst ∨ n ∈ buckets.map BucketInfo.name) := by
  induction buckets generalizing acc with
  | nil => simp
  | cons b bs ih =>
    simp only [List.foldl_cons, List.map_cons, List.mem_cons]
    rw [ih]
    rw [byNameInsert_keys]
    by_cases hmem : b.name ∈ acc.map Prod.fst
    · rw [if_pos hmem]
      constructor
      · rintro (h | h)
        · exact Or.inl h
        · exact Or.inr (Or.inr h)
      · rintro (h | h | h)
        · exact Or.inl h
        · subst h
          exact Or.inl hmem
        · exact Or.inr h
    · rw [if_neg hmem]
      simp only [List.mem_append, List.mem_singleton]
      constructor
      · rintro ((h | h) | h)
        · exact Or.inl h
        · exact Or.inr (Or.inl h)
        · exact Or.inr (Or.inr h)
      · rintro (h | h | h)
        · exact Or.inl (Or.inl h)
        · exact Or.inl (Or.inr h)
        · exact Or.inr h

theorem buildByNameAux_keys_nodup (buckets : List BucketInfo)
    (acc : List (String × List (Option String)))
    (h : (acc.map Prod.fst).Nodup) :
    ((buckets.foldl (fun acc b => byNameInsert acc b.name b.profile) acc).map Prod.fst).Nodup := by
  induction buckets generalizing acc with
  | nil => simpa using h
  | cons b bs ih =>
    simp only [List.foldl_cons]
    apply ih
    rw [byNameInsert_keys]
    by_cases hmem : b.name ∈ acc.map Prod.fst
    · simpa [hmem] using h
    · rw [if_neg hmem]
      refine List.Nodup.append h (List.nodup_singleton _) ?_
      simpa [List.disjoint_singleton] using hmem

/-- C1: `select_best_bucket_profiles` produces exactly one record per
distinct bucket name (duplicate-free names covering exactly the names in
the input listing), and each resolved record's access level equals the
maximum access level observed across all probed (configured) profiles
for that bucket. -/
theorem c1_access_resolution (profiles : List (Option String))
    (probe : String → Option String → Except Unit String) (buckets : List BucketInfo) :
    ((selectBestBucketProfiles profiles probe buckets).map BucketInfo.name).Nodup ∧
    (∀ n, n ∈ (selectBestBucketProfiles profiles probe buckets).map BucketInfo.name ↔
      n ∈ buckets.map BucketInfo.name) ∧
    (∀ r ∈ selectBestBucketProfiles profiles probe buckets,
      bucketAccessLevel r.access
        = maxProbeLevel (probeAccess probe) r.name
            (if profiles = [] then [none] else profiles)) := by
  have hpp : (if profiles = [] then [none] else profiles) ≠ [] := by
    by_cases h : profiles = [] <;> simp [h]
  unfold selectBestBucketProfiles
  by_cases hempty : buildByName buckets = []
  · rw [if_pos hempty]
    refine ⟨by simp, ?_, by simp⟩
    intro n
    simp only [List.map_nil, List.not_mem_nil, false_iff]
    intro hmem
    have h2 := (buildByNameAux_keys_mem buckets [] n).mpr (Or.inr hmem)
    unfold buildByName at hempty
    rw [hempty] at h2
    simp at h2
  · rw [if_neg hempty]
    set probeProfiles := if profiles = [] then [none] else profiles with hppdef
    set rankMap := profileRankMap probeProfiles with hrm
    have hname : ∀ e ∈ buildByName buckets,
        (resolveBucket (probeAccess probe) probeProfiles rankMap e).name = e.1 :=
      fun e _ => (resolveBucket_spec (probeAccess probe) probeProfiles rankMap e hpp).1
    have hmapeq : ((buildByName buckets).map
        (resolveBucket (probeAccess probe) probeProfiles rankMap)).map BucketInfo.name
        = (buildByName buckets).map Prod.fst := by
      rw [List.map_map]
      exact List.map_congr_left fun e he => hname e he
    refine ⟨?_, ?_, ?_⟩
    · rw [hmapeq]
      exact buildByNameAux_keys_nodup buckets [] (by simp)
    · intro n
      rw [hmapeq]
      have := buildByNameAux_keys_mem buckets [] n
      simpa using this
    · intro r hr
      rw [List.mem_map] at hr
      obtain ⟨e, he, rfl⟩ := hr
      have hspec := resolveBucket_spec (probeAccess probe) probeProfiles rankMap e hpp
      rw [hspec.2, hspec.1]

/-- Witness for C1 at a concrete input. -/
theorem c1_access_resolution_witness :
    (((selectBestBucketProfiles [none, some "dev"]
        (fun _ p => if p = some "dev" then .ok "good" else .ok "no_view")
        [⟨"bucket-a", none, "unknown", false⟩]).map BucketInfo.name).Nodup) ∧
    ("bucket-a" ∈ (selectBestBucketProfiles [none, some "dev"]
        (fun _ p => if p = some "dev" then .ok "good" else .ok "no_view")
        [⟨"bucket-a", none, "unknown", false⟩]).map BucketInfo.name) := by
  have h := c1_access_resolution [none, some "dev"]
    (fun _ p => if p = some "dev" then .ok "good" else .ok "no_view")
    [⟨"bucket-a", none, "unknown", false⟩]
  exact ⟨h.1, (h.2.1 "bucket-a").mpr (by decide)⟩

/-- C3 counterexample: profiles `a` and `b` both probe `good` on bucket
`x` (identical access level, identical defaultness), `a` precedes `b` in
configuration order, yet `b` wins because only `b` appeared in the
original listing — the `wasInOriginalListing` key component outranks
configuration order, refuting the claim's second tie-break as stated. -/
theorem c3_ranking_counterexample :
    selectBestBucketProfiles [some "a", some "b"] (fun _ _ => .ok "good")
      [⟨"x", some "b", "unknown", false⟩]
      = [⟨"x", some "b", "good", false⟩] ∧
    (some "a" : Option String) ≠ some "b" := by
  refine ⟨by decide, by decide⟩

/-- C3 as amended: with ranking key `(level, nonDefault, listed, -rank)`
compared lexicographically and first-maximal selection, a non-default
candidate always beats a default candidate of equal access level; among
candidates of equal level and defaultness one that listed the bucket
beats one that did not, and with equal listedness the earlier configured
profile (smaller rank) wins; the all-`no_view` fallback ranking uses
defaultness then configuration order; and the resolved record's profile
is the primary winner whenever its probed level is positive.  All
quantities depend only on the per-(bucket, profile) probe results, never
on probe completion order. -/
theorem c3_ranking_amended (probeAcc : String → Option String → String)
    (probeProfiles : List (Option String)) (rankMap : List (Option String × Nat))
    (listedProfiles : List (Option String)) (name : String)
    (p q : Option String) :
    (p ∈ probeProfiles → q ∈ probeProfiles →
      bucketAccessLevel (probeAcc name p) = bucketAccessLevel (probeAcc name q) →
      p.isSome → q = none →
      primaryWinner probeAcc rankMap listedProfiles name probeProfiles ≠ q) ∧
    (p ∈ probeProfiles → q ∈ probeProfiles →
      bucketAccessLevel (probeAcc name p) = bucketAccessLevel (probeAcc name q) →
      p.isSome = q.isSome → p ∈ listedProfiles → q ∉ listedProfiles →
      primaryWinner probeAcc rankMap listedProfiles name probeProfiles ≠ q) ∧
    (p ∈ probeProfiles → q ∈ probeProfiles →
      bucketAccessLevel (probeAcc name p) = bucketAccessLevel (probeAcc name q) →
      p.isSome = q.isSome → ((p ∈ listedProfiles) ↔ (q ∈ listedProfiles)) →
      profileRank rankMap p < profileRank rankMap q →
      primaryWinner probeAcc rankMap listedProfiles name probeProfiles ≠ q) ∧
    (∀ fb : List (Option String), p ∈ fb → q ∈ fb →
      p.isSome → q = none → fallbackWinner rankMap fb ≠ q) ∧
    (∀ fb : List (Option String), p ∈ fb → q ∈ fb →
      p.isSome = q.isSome → profileRank rankMap p < profileRank rankMap q →
      fallbackWinner rankMap fb ≠ q) ∧
    (∀ listed, probeProfiles ≠ [] →
      0 < bucketAccessLevel (probeAcc name
        (primaryWinner probeAcc rankMap listed name probeProfiles)) →
      (resolveBucket probeAcc probeProfiles rankMap (name, listed)).profile
        = primaryWinner probeAcc rankMap listed name probeProfiles) := by
  refine ⟨?_, ?_, ?_, ?_, ?_, ?_⟩
  · intro hp hq hlev hpsome hqnone
    cases probeProfiles with
    | nil => simp at hp
    | cons x rest =>
      intro hwq
      have hmax := pyFoldMax_not_lt key4Lt
        (profileKey probeAcc rankMap listedProfiles name) key4Lt_asymm key4Lt_mix x rest p hp
      have hlt : key4Lt (profileKey probeAcc rankMap listedProfiles name q)
          (profileKey probeAcc rankMap listedProfiles name p) = true := by
        simp only [profileKey, key4Lt, Bool.or_eq_true, Bool.and_eq_true, decide_eq_true_eq]
        rcases p with _ | pv
        · simp at hpsome
        · subst hqnone
          simp [hlev]
      rw [show primaryWinner probeAcc rankMap listedProfiles name (x :: rest)
          = pyFoldMax key4Lt (profileKey probeAcc rankMap listedProfiles name) x rest from rfl]
        at hwq
      rw [hwq, hlt] at hmax
      exact absurd hmax (by simp)
  · intro hp hq hlev hsome hplisted hqlisted
    cases probeProfiles with
    | nil => simp at hp
    | cons x rest =>
      intro hwq
      have hmax := pyFoldMax_not_lt key4Lt
        (profileKey probeAcc rankMap listedProfiles name) key4Lt_asymm key4Lt_mix x rest p hp
      have hlt : key4Lt (profileKey probeAcc rankMap listedProfiles name q)
          (profileKey probeAcc rankMap listedProfiles name p) = true := by
        simp only [profileKey, key4Lt, Bool.or_eq_true, Bool.and_eq_true, decide_eq_true_eq]
        have h1 : (if q.isSome then 1 else 0) = (if p.isSome then 1 else 0) := by
          rw [hsome]
        refine Or.inr ⟨hlev.symm, Or.inr ⟨h1, Or.inl ?_⟩⟩
        simp only [hplisted, hqlisted, if_true, if_false]
        omega
      rw [show primaryWinner probeAcc rankMap listedProfiles name (x :: rest)
          = pyFoldMax key4Lt (profileKey probeAcc rankMap listedProfiles name) x rest from rfl]
        at hwq
      rw [hwq, hlt] at hmax
      exact absurd hmax (by simp)
  · intro hp hq hlev hsome hlisted hrank
    cases probeProfiles with
    | nil => simp at hp
    | cons x rest =>
      intro hwq
      have hmax := pyFoldMax_not_lt key4Lt
        (profileKey probeAcc rankMap listedProfiles name) key4Lt_asymm key4Lt_mix x rest p hp
      have hlt : key4Lt (profileKey probeAcc rankMap listedProfiles name q)
          (profileKey probeAcc rankMap listedProfiles name p) = true := by
        simp only [profileKey, key4Lt, Bool.or_eq_true, Bool.and_eq_true, decide_eq_true_eq]
        have h1 : (if q.isSome then 1 else 0) = (if p.isSome then 1 else 0) := by
          rw [hsome]
        have h2 : (if q ∈ listedProfiles then 1 else 0)
            = (if p ∈ listedProfiles then 1 else 0) := by
          by_cases hmem : q ∈ listedProfiles
          · simp [hmem, hlisted.mpr hmem]
          · have hpm : p ∉ listedProfiles := fun hc => hmem (hlisted.mp hc)
            simp [hmem, hpm]
        refine Or.inr ⟨hlev.symm, Or.inr ⟨h1, Or.inr ⟨h2, ?_⟩⟩⟩
        omega
      rw [show primaryWinner probeAcc rankMap listedProfiles name (x :: rest)
          = pyFoldMax key4Lt (profileKey probeAcc rankMap listedProfiles name) x rest from rfl]
        at hwq
      rw [hwq, hlt] at hmax
      exact absurd hmax (by simp)
  · intro fb hp hq hpsome hqnone
    cases fb with
    | nil => simp at hp
    | cons x rest =>
      intro hwq
      have hmax := pyFoldMax_not_lt key2Lt (fallbackKey rankMap)
        key2Lt_asymm key2Lt_mix x rest p hp
      have hlt : key2Lt (fallbackKey rankMap q) (fallbackKey rankMap p) = true := by
        simp only [fallbackKey, key2Lt, Bool.or_eq_true, Bool.and_eq_true, decide_eq_true_eq]
        rcases p with _ | pv
        · simp at hpsome
        · subst hqnone
          simp
      rw [show fallbackWinner rankMap (x :: rest)
          = pyFoldMax key2Lt (fallbackKey rankMap) x rest from rfl] at hwq
      rw [hwq, hlt] at hmax
      exact absurd hmax (by simp)
  · intro fb hp hq hsome hrank
    cases fb with
    | nil => simp at hp
    | cons x rest =>
      intro hwq
      have hmax := pyFoldMax_not_lt key2Lt (fallbackKey rankMap)
        key2Lt_asymm key2Lt_mix x rest p hp
      have hlt : key2Lt (fallbackKey rankMap q) (fallbackKey rankMap p) = true := by
        simp only [fallbackKey, key2Lt, Bool.or_eq_true, Bool.and_eq_true, decide_eq_true_eq]
        have h1 : (if q.isSome then 1 else 0) = (if p.isSome then 1 else 0) := by
          rw [hsome]
        refine Or.inr ⟨h1.symm ▸ rfl, ?_⟩
        omega
      rw [show fallbackWinner rankMap (x :: rest)
          = pyFoldMax key2Lt (fallbackKey rankMap) x rest from rfl] at hwq
      rw [hwq, hlt] at hmax
      exact absurd hmax (by simp)
  · intro listed hne hpos
    unfold resolveBucket
    have hcond : ¬ probeProfiles = [] := hne
    simp only [hcond, if_false]
    rw [if_neg (by omega)]

/-- Witness for C3's amended theorem at a concrete input: with all probes
`good`, the default profile can never be the primary winner when a named
profile is present. -/
theorem c3_ranking_amended_witness :
    primaryWinner (fun _ _ => BUCKET_ACCESS_GOOD) (profileRankMap [some "a", none])
      [] "x" [some "a", none] ≠ none := by
  have h := (c3_ranking_amended (fun _ _ => BUCKET_ACCESS_GOOD)
    [some "a", none] (profileRankMap [some "a", none]) [] "x" (some "a") none).1
  exact h (by decide) (by decide) rfl (by decide) rfl

/-! ### C6 and C7: cache layer
(`S3Service._aws_config_hash` s3.py 121-140, `save_bucket_cache` 497-522,
`load_bucket_cache` 482-495, `_read_bucket_cache` 438-473) -/

/-- UTF-8 bytes of the label `"config"` hashed at s3.py 133. -/
def configLabelBytes : List Nat := [99, 111, 110, 102, 105, 103]

/-- UTF-8 bytes of the label `"credentials"`. -/
def credentialsLabelBytes : List Nat :=
  [99, 114, 101, 100, 101, 110, 116, 105, 97, 108, 115]

/-- One labelled chunk fed to the hasher (s3.py 133-136):
`label + b"\x00" + data + b"\x00"` for a readable file, nothing for an
unreadable one. -/
def hashChunk (label : List Nat) (data : Option (List Nat)) : List Nat :=
  match data with
  | none => []
  | some d => label ++ [0] ++ d ++ [0]

/-- The full byte stream fed to `hashlib.sha256` by `_aws_config_hash`. -/
def awsConfigHashInput (cfg creds : Option (List Nat)) : List Nat :=
  hashChunk configLabelBytes cfg ++ hashChunk credentialsLabelBytes creds

/-- Embeds `_aws_config_hash` (s3.py 121-140) over an abstract digest
function `H` standing for `sha256(...).hexdigest()`: `none` when neither
source file is readable, otherwise the digest of the labelled stream. -/
def awsConfigHash (H : List Nat → String) (cfg creds : Option (List Nat)) : Option String :=
  if cfg.isSome || creds.isSome then some (H (awsConfigHashInput cfg creds)) else none

/-- One row of the persisted `buckets` array (s3.py 501-509). -/
structure CacheRow where
  name : String
  profile : Option String
  access : String
  is_empty : Bool
deriving DecidableEq, Repr

/-- The persisted cache envelope (s3.py 510-514), with the JSON text
layer modelled as the identity on this typed payload: `saved_at` is the
already-parsed timestamp in seconds (`none` = missing or unparseable),
`buckets = none` models a payload whose `buckets` is not a list. -/
structure CachePayload where
  saved_at : Option Nat
  aws_config_sha256 : Option String
  buckets : Option (List CacheRow)
deriving DecidableEq, Repr

/-- Insertion step of a stable sort by bucket name. -/
def insertSorted (row : String × BucketInfo) :
    List (String × BucketInfo) → List (String × BucketInfo)
  | [] => [row]
  | r :: rest => if row.1 ≤ r.1 then row :: r :: rest else r :: insertSorted row rest

/-- `sorted(latest_by_name.items(), key=lambda item: item[0])`
(s3.py 508) as a stable insertion sort (keys are unique, so any sort
agrees with Python's). -/
def sortByName : List (String × BucketInfo) → List (String × BucketInfo)
  | [] => []
  | r :: rest => insertSorted r (sortByName rest)

/-- The row comprehension body at s3.py 501-507. -/
def rowOfBucket (nb : String × BucketInfo) : CacheRow :=
  CacheRow.mk nb.1 nb.2.profile (normalizeBucketAccess nb.2.access) nb.2.is_empty

/-- Embeds `save_bucket_cache` (s3.py 497-522): deduplicate by name with
last-record-wins, sort rows by name, and write the envelope (the atomic
temp-file rename is modelled as the written payload value). -/
def saveBucketCache (H : List Nat → String) (cfg creds : Option (List Nat)) (now : Nat)
    (buckets : List BucketInfo) : CachePayload :=
  let latestByName := buckets.foldl (fun acc b => alistSet acc b.name b) []
  let rows := (sortByName latestByName).map rowOfBucket
  CachePayload.mk (some now) (awsConfigHash H cfg creds) (some rows)

/-- Embeds `_decode_profile` (s3.py 415-423). -/
def decodeProfile (value : Option String) : Option String :=
  match value with
  | none => none
  | some s =>
    let normalized := chStrip s
    if normalized = "" ∨ normalized = "default" ∨ normalized = "__default__" then none
    else some normalized

/-- Embeds `_decode_cache_hash` (s3.py 431-436). -/
def decodeCacheHash (value : Option String) : Option String :=
  match value with
  | none => none
  | some s => if chStrip s = "" then none else some (chStrip s)

/-- The per-item decoding of `_read_bucket_cache`'s loop (s3.py 452-471):
skip rows with blank names; strip the name; decode profile, access and
the emptiness flag. -/
def decodeCacheRow (item : CacheRow) : Option BucketInfo :=
  let stripped := chStrip item.name
  if stripped = "" then none
  else some (BucketInfo.mk stripped (decodeProfile item.profile)
    (normalizeBucketAccess item.access) item.is_empty)

/-- Embeds `_read_bucket_cache` (s3.py 438-473): returns
`(saved_at, buckets, cache_hash)`; `none` input models an unreadable or
malformed file. -/
def readBucketCache (file : Option CachePayload) :
    Option Nat × List BucketInfo × Option String :=
  match file with
  | none => (none, [], none)
  | some payload =>
    let cacheHash := decodeCacheHash payload.aws_config_sha256
    match payload.buckets with
    | none => (payload.saved_at, [], cacheHash)
    | some items => (payload.saved_at, items.filterMap decodeCacheRow, cacheHash)

/-- Embeds `load_bucket_cache` (s3.py 482-495): empty on empty decode,
on fingerprint mismatch, and on TTL expiry (`ttl = 0` disables the TTL
check, as `max(0, ttl) <= 0` does in the source). -/
def loadBucketCache (H : List Nat → String) (cfg creds : Option (List Nat))
    (now ttl : Nat) (file : Option CachePayload) : List BucketInfo :=
  let r := readBucketCache file
  if r.2.1 = [] then []
  else if r.2.2 ≠ awsConfigHash H cfg creds then []
  else if ttl = 0 then r.2.1
  else
    match r.1 with
    | none => []
    | some t => if ttl < now - t then [] else r.2.1

/-- Records already in the cache's canonical form: stripped non-empty
name, stripped profile that is not a reserved default marker, access
equal to one of the four normalized level strings. -/
def canonicalRecord (b : BucketInfo) : Bool :=
  decide (chStrip b.name = b.name) && decide (b.name ≠ "") &&
  (match b.profile with
   | none => true
   | some p => decide (chStrip p = p) && decide (p ≠ "") &&
       decide (p ≠ "default") && decide (p ≠ "__default__")) &&
  decide (normalizeBucketAccess b.access = b.access)

theorem insertSorted_perm (row : String × BucketInfo) (l : List (String × BucketInfo)) :
    (insertSorted row l).Perm (row :: l) := by
  induction l with
  | nil => exact List.Perm.refl _
  | cons r rest ih =>
    simp only [insertSorted]
    by_cases h : row.1 ≤ r.1
    · rw [if_pos h]
    · rw [if_neg h]
      exact List.Perm.trans (List.Perm.cons r ih) (List.Perm.swap row r rest)

theorem sortByName_perm (l : List (String × BucketInfo)) :
    (sortByName l).Perm l := by
  induction l with
  | nil => exact List.Perm.refl _
  | cons r rest ih =>
    simp only [sortByName]
    exact List.Perm.trans (insertSorted_perm r (sortByName rest)) (List.Perm.cons r ih)

theorem alistSet_fresh {κ ν : Type} [DecidableEq κ] (l : List (κ × ν)) (k : κ) (v : ν)
    (h : k ∉ l.map Prod.fst) : alistSet l k v = l ++ [(k, v)] := by
  induction l with
  | nil => rfl
  | cons hd tl ih =>
    obtain ⟨k', v'⟩ := hd
    simp only [List.map_cons, List.mem_cons] at h
    push_neg at h
    simp only [alistSet]
    rw [if_neg (fun hkk => h.1 hkk.symm), ih h.2]
    simp

theorem latestByName_eq (records : List BucketInfo) (acc : List (String × BucketInfo))
    (hnodup : (records.map BucketInfo.name).Nodup)
    (hfresh : ∀ b ∈ records, b.name ∉ acc.map Prod.fst) :
    records.foldl (fun acc b => alistSet acc b.name b) acc
      = acc ++ records.map fun b => (b.name, b) := by
  induction records generalizing acc with
  | nil => simp
  | cons b rest ih =>
    simp only [List.foldl_cons]
    rw [alistSet_fresh acc b.name b (hfresh b (by simp))]
    rw [List.map_cons] at hnodup
    have hnodup' := List.Nodup.of_cons hnodup
    have hb_notin : b.name ∉ rest.map BucketInfo.name := (List.nodup_cons.mp hnodup).1
    have hfresh' : ∀ c ∈ rest, c.name ∉ (acc ++ [(b.name, b)]).map Prod.fst := by
      intro c hc
      simp only [List.map_append, List.map_cons, List.map_nil, List.mem_append,
        List.mem_singleton]
      push_neg
      refine ⟨fun hcn => hfresh c (by simp [hc]) hcn, ?_⟩
      intro hceq
      exact hb_notin (hceq ▸ List.mem_map_of_mem BucketInfo.name hc)
    rw [ih (acc ++ [(b.name, b)]) hnodup' hfresh']
    simp

theorem decodeCacheRow_rowOfBucket (nb : String × BucketInfo)
    (hname : nb.1 = nb.2.name) (hc : canonicalRecord nb.2 = true) :
    decodeCacheRow (rowOfBucket nb) = some nb.2 := by
  obtain ⟨n, b⟩ := nb
  simp only at hname
  subst hname
  simp only [canonicalRecord, Bool.and_eq_true, decide_eq_true_eq] at hc
  obtain ⟨⟨⟨hstrip, hnonempty⟩, hprof⟩, haccess⟩ := hc
  simp only [decodeCacheRow, rowOfBucket]
  rw [haccess, hstrip]
  rw [if_neg hnonempty]
  have hprofile : decodeProfile b.profile = b.profile := by
    cases hp : b.profile with
    | none => rfl
    | some p =>
      rw [hp] at hprof
      simp only [Bool.and_eq_true, decide_eq_true_eq] at hprof
      obtain ⟨⟨⟨hps, hpne⟩, hpd⟩, hpdd⟩ := hprof
      simp only [decodeProfile, hps]
      rw [if_neg (by simp [hpne, hpd, hpdd])]
  rw [hprofile, haccess]

theorem decode_map (l : List (String × BucketInfo))
    (h : ∀ nb ∈ l, nb.1 = nb.2.name ∧ canonicalRecord nb.2 = true) :
    (l.map rowOfBucket).filterMap decodeCacheRow = l.map Prod.snd := by
  induction l with
  | nil => rfl
  | cons nb rest ih =>
    simp only [List.map_cons, List.filterMap_cons]
    have hnb := h nb (by simp)
    rw [decodeCacheRow_rowOfBucket nb hnb.1 hnb.2]
    rw [ih fun x hx => h x (by simp [hx])]

theorem decodeCacheHash_of_hash (H : List Nat → String)
    (hH : ∀ bs, chStrip (H bs) = H bs ∧ H bs ≠ "") (cfg creds : Option (List Nat)) :
    decodeCacheHash (awsConfigHash H cfg creds) = awsConfigHash H cfg creds := by
  unfold awsConfigHash
  by_cases hfound : (cfg.isSome || creds.isSome) = true
  · rw [if_pos hfound]
    simp only [decodeCacheHash]
    rw [(hH _).1, if_neg (hH _).2]
  · rw [if_neg hfound]
    rfl

/-- C6 counterexample: two records sharing the bucket name `"b"` do not
round-trip — `save` keeps only the last record per name (s3.py 498-500),
so `load(save(records))` has one record where the input had two, refuting
"returns the same records up to reordering" for every input list. -/
theorem c6_cache_roundtrip_counterexample :
    ¬ (loadBucketCache (fun _ => "h") none none 0 0
        (some (saveBucketCache (fun _ => "h") none none 0
          [⟨"b", none, "good", false⟩, ⟨"b", none, "no_view", false⟩]))).Perm
      [⟨"b", none, "good", false⟩, ⟨"b", none, "no_view", false⟩] := by
  intro hperm
  have hlen := hperm.length_eq
  have hl : (loadBucketCache (fun _ => "h") none none 0 0
      (some (saveBucketCache (fun _ => "h") none none 0
        [⟨"b", none, "good", false⟩, ⟨"b", none, "no_view", false⟩]))).length = 1 := by
    decide
  rw [hl] at hlen
  simp at hlen

/-- C6 as amended: for every non-empty list of canonical records with
pairwise-distinct names (stripped non-empty names, stripped
non-reserved profiles, normalized access strings — each condition forced
by `save`'s name-deduplication and `load`'s decoding), loading
immediately after saving returns a permutation of the records, provided
the credential files (hence the fingerprint) are unchanged and the
digest function returns non-empty stripped strings, as hex digests do. -/
theorem c6_cache_roundtrip_amended (H : List Nat → String)
    (cfg creds : Option (List Nat)) (now ttl : Nat) (records : List BucketInfo)
    (hH : ∀ bs, chStrip (H bs) = H bs ∧ H bs ≠ "")
    (hne : records ≠ [])
    (hnodup : (records.map BucketInfo.name).Nodup)
    (hcanon : ∀ b ∈ records, canonicalRecord b = true) :
    (loadBucketCache H cfg creds now ttl
      (some (saveBucketCache H cfg creds now records))).Perm records := by
  have hstep1 : saveBucketCache H cfg creds now records
      = CachePayload.mk (some now) (awsConfigHash H cfg creds)
          (some ((sortByName (records.map fun b => (b.name, b))).map rowOfBucket)) := by
    unfold saveBucketCache
    rw [latestByName_eq records [] hnodup (by simp)]
    simp
  set sorted := sortByName (records.map fun b => (b.name, b)) with hsorted
  have hsortperm : sorted.Perm (records.map fun b => (b.name, b)) :=
    sortByName_perm _
  have hmem : ∀ nb ∈ sorted, nb.1 = nb.2.name ∧ canonicalRecord nb.2 = true := by
    intro nb hnb
    have hnb' : nb ∈ records.map fun b => (b.name, b) := hsortperm.mem_iff.mp hnb
    obtain ⟨b, hb, rfl⟩ := List.mem_map.mp hnb'
    exact ⟨rfl, hcanon b hb⟩
  have hdecoded : (sorted.map rowOfBucket).filterMap decodeCacheRow
      = sorted.map Prod.snd := decode_map sorted hmem
  have hperm : ((sorted.map rowOfBucket).filterMap decodeCacheRow).Perm records := by
    rw [hdecoded]
    have h2 := hsortperm.map Prod.snd
    have h3 : (records.map fun b => (b.name, b)).map Prod.snd = records := by
      rw [List.map_map]
      have hid : (Prod.snd ∘ fun (b : BucketInfo) => (b.name, b)) = id := rfl
      rw [hid, List.map_id]
    rw [h3] at h2
    exact h2
  have hnonempty : (sorted.map rowOfBucket).filterMap decodeCacheRow ≠ [] := by
    intro h0
    rw [h0] at hperm
    exact hne hperm.symm.eq_nil
  rw [hstep1]
  have hread : readBucketCache (some (CachePayload.mk (some now)
      (awsConfigHash H cfg creds) (some (sorted.map rowOfBucket))))
      = (some now, (sorted.map rowOfBucket).filterMap decodeCacheRow,
          decodeCacheHash (awsConfigHash H cfg creds)) := rfl
  unfold loadBucketCache
  rw [hread]
  dsimp only
  rw [if_neg hnonempty]
  rw [decodeCacheHash_of_hash H hH cfg creds]
  rw [if_neg (by simp)]
  by_cases httl : ttl = 0
  · rw [if_pos httl]
    exact hperm
  · rw [if_neg httl]
    simp only [Nat.sub_self]
    rw [if_neg (by omega)]
    exact hperm

/-- Witness for C6's amended theorem at a concrete input. -/
theorem c6_cache_roundtrip_amended_witness :
    (loadBucketCache (fun _ => "h") (some [1]) none 5 3600
      (some (saveBucketCache (fun _ => "h") (some [1]) none 5
        [⟨"alpha", none, "no_view", false⟩,
         ⟨"beta", some "dev", "good", true⟩]))).Perm
      [⟨"alpha", none, "no_view", false⟩, ⟨"beta", some "dev", "good", true⟩] :=
  c6_cache_roundtrip_amended (fun _ => "h") (some [1]) none 5 3600
    [⟨"alpha", none, "no_view", false⟩, ⟨"beta", some "dev", "good", true⟩]
    (fun _ => ⟨rfl, by show ("h" : String) ≠ ""; decide⟩) (by decide) (by decide) (by decide)

/-- C7 counterexample: with no readable source file on either side the
fingerprint is `None` at save and load time, the `None != None` check at
s3.py 486 does not fire, and `load()` returns the saved records — not
empty as the claim states; moreover an empty-but-readable config file
still yields a defined fingerprint (its label is hashed), so empty files
are not skipped. -/
theorem c7_fingerprint_counterexample :
    awsConfigHash (fun _ => "h") none none = none ∧
    loadBucketCache (fun _ => "h") none none 0 0
      (some (saveBucketCache (fun _ => "h") none none 0
        [⟨"b", none, "good", false⟩]))
      = [⟨"b", none, "good", false⟩] ∧
    awsConfigHash (fun _ => "h") (some []) none = some "h" := by
  refine ⟨rfl, by decide, rfl⟩

/-- C7 as amended: the fingerprint hashes the labelled contents of every
readable source file — including empty ones, whose label still
contributes and keeps the fingerprint defined; with no readable file the
fingerprint is `None` (and a cache whose stored hash decodes to `None`
is then accepted, not invalidated); altering the bytes of either
readable file changes the hash input (hence, absent a digest collision,
the fingerprint); and whenever the stored hash decodes differently from
the live fingerprint, `load()` returns empty regardless of `saved_at`. -/
theorem c7_fingerprint_amended (H : List Nat → String) :
    (∀ d creds, awsConfigHash H (some d) creds ≠ none) ∧
    (∀ cfg e, awsConfigHash H cfg (some e) ≠ none) ∧
    (awsConfigHash H none none = none) ∧
    (∀ d d' creds, d ≠ d' →
      awsConfigHashInput (some d) creds ≠ awsConfigHashInput (some d') creds) ∧
    (∀ cfg e e', e ≠ e' →
      awsConfigHashInput cfg (some e) ≠ awsConfigHashInput cfg (some e')) ∧
    (∀ cfg creds now ttl payload,
      decodeCacheHash payload.aws_config_sha256 ≠ awsConfigHash H cfg creds →
      loadBucketCache H cfg creds now ttl (some payload) = []) := by
  refine ⟨?_, ?_, rfl, ?_, ?_, ?_⟩
  · intro d creds
    simp [awsConfigHash]
  · intro cfg e
    simp [awsConfigHash]
  · intro d d' creds hne heq
    apply hne
    simp only [awsConfigHashInput, hashChunk, List.append_assoc] at heq
    have h1 := List.append_cancel_left heq
    have h2 := List.append_cancel_left h1
    exact List.append_cancel_right h2
  · intro cfg e e' hne heq
    apply hne
    simp only [awsConfigHashInput, hashChunk, List.append_assoc] at heq
    have h1 := List.append_cancel_left heq
    have h2 := List.append_cancel_left h1
    have h3 := List.append_cancel_left h2
    exact List.append_cancel_right h3
  · intro cfg creds now ttl payload hmismatch
    obtain ⟨sa, hashv, bks⟩ := payload
    dsimp only at hmismatch
    cases bks with
    | none =>
      unfold loadBucketCache readBucketCache
      dsimp only
      rw [if_pos rfl]
    | some items =>
      unfold loadBucketCache readBucketCache
      dsimp only
      by_cases hempty : items.filterMap decodeCacheRow = []
      · rw [if_pos hempty]
      · rw [if_neg hempty, if_pos hmismatch]

/-- Witness for C7's amended theorem at a concrete input: a stored hash
that differs from the live fingerprint makes `load()` return empty even
with a fresh `saved_at`. -/
theorem c7_fingerprint_amended_witness :
    loadBucketCache (fun _ => "h") none none 0 3600
      (some (CachePayload.mk (some 0) (some "x")
        (some [CacheRow.mk "b" none "good" false]))) = [] :=
  (c7_fingerprint_amended (fun _ => "h")).2.2.2.2.2 none none 0 3600
    (CachePayload.mk (some 0) (some "x") (some [CacheRow.mk "b" none "good" false]))
    (by decide)

/-! ### C4: single-flight SSO re-authentication
(`S3Browser._reauth_sso_profile`, app.py 1077-1102)

The asyncio event loop runs `_reauth_sso_profile` cooperatively: between
`await` points each caller executes atomically.  For one profile label
the relevant atomic steps are: the lookup/create/register block at
app.py 1079-1096 (no `await` inside, hence one step), the completion of
the shared `do_login` task, and a caller's resumption after `await
inflight`, which runs the `finally` block (pop the map entry only if it
still holds this very task and the task is done) in the same stretch.
`loginResult t` is the boolean outcome of the `t`-th spawned login. -/

/-- Program counter of one caller of `_reauth_sso_profile`. -/
inductive SFPC where
  | idle
  | waiting (t : Nat)
  | finished (r : Bool)
deriving DecidableEq, Repr

/-- Shared state: `inflight` models `self._sso_reauth_inflight[label]`
(`none` = no map entry), `tasks` the spawned login tasks (index = task
id, value = done flag), `pcs` the callers. -/
structure SFState where
  inflight : Option Nat
  tasks : List Bool
  pcs : List SFPC
deriving DecidableEq, Repr

/-- Scheduler events: a caller runs its lookup/create block, a login
task completes, or a caller resumes from its `await`. -/
inductive SFEvent where
  | start (i : Nat)
  | complete (t : Nat)
  | resume (i : Nat)
deriving DecidableEq, Repr

/-- One atomic step; `none` when the event is not enabled. -/
def sfStep (loginResult : Nat → Bool) (s : SFState) : SFEvent → Option SFState
  | .start i =>
    match s.pcs[i]? with
    | some .idle =>
      match s.inflight with
      | some t => some { s with pcs := s.pcs.set i (.waiting t) }
      | none =>
        let t := s.tasks.length
        some { inflight := some t, tasks := s.tasks ++ [false],
               pcs := s.pcs.set i (.waiting t) }
    | _ => none
  | .complete t =>
    match s.tasks[t]? with
    | some false => some { s with tasks := s.tasks.set t true }
    | _ => none
  | .resume i =>
    match s.pcs[i]? with
    | some (.waiting t) =>
      if s.tasks[t]? = some true then
        some { s with pcs := s.pcs.set i (.finished (loginResult t)),
                      inflight := if s.inflight = some t then none else s.inflight }
      else none
    | _ => none

/-- Run a whole schedule. -/
def sfRun (loginResult : Nat → Bool) (s : SFState) : List SFEvent → Option SFState
  | [] => some s
  | e :: rest =>
    match sfStep loginResult s e with
    | some s' => sfRun loginResult s' rest
    | none => none

/-- Initial state for `n` concurrent callers of the same label. -/
def sfInit (n : Nat) : SFState :=
  ⟨none, [], List.replicate n .idle⟩

/-- The "concurrent callers" trace condition: no caller enters
`_reauth_sso_profile` after a login task has already completed (callers
arriving later belong to a fresh re-auth epoch by design). -/
def noStartAfterComplete : Bool → List SFEvent → Bool
  | _, [] => true
  | seen, .start _ :: rest => !seen && noStartAfterComplete seen rest
  | _, .complete _ :: rest => noStartAfterComplete true rest
  | seen, .resume _ :: rest => noStartAfterComplete seen rest

/-- Core invariant: at most one login task exists, every waiter waits on
task 0, every finished caller holds task 0's result, and the map entry
(if any) points at task 0. -/
def SFCore (lr : Nat → Bool) (s : SFState) : Prop :=
  s.tasks.length ≤ 1 ∧
  (∀ p ∈ s.pcs,
    (∀ t, p = SFPC.waiting t → t = 0 ∧ s.tasks.length = 1) ∧
    (∀ r, p = SFPC.finished r → r = lr 0 ∧ s.tasks.length = 1)) ∧
  (∀ t, s.inflight = some t → t = 0 ∧ s.tasks.length = 1)

/-- Phase invariant: before any completion, no task is done and an empty
map entry means no task was ever created. -/
def SFPhase (lr : Nat → Bool) (seen : Bool) (s : SFState) : Prop :=
  SFCore lr s ∧
  (seen = false →
    (∀ d ∈ s.tasks, d = false) ∧ (s.inflight = none → s.tasks.length = 0))

theorem sfRun_core (lr : Nat → Bool) (events : List SFEvent) :
    ∀ (seen : Bool) (s s' : SFState), SFPhase lr seen s →
    noStartAfterComplete seen events = true →
    sfRun lr s events = some s' →
    SFCore lr s' ∧ s'.pcs.length = s.pcs.length := by
  induction events with
  | nil =>
    intro seen s s' hinv _ hrun
    simp only [sfRun, Option.some_inj] at hrun
    subst hrun
    exact ⟨hinv.1, rfl⟩
  | cons e rest ih =>
    intro seen s s' hinv hnsac hrun
    simp only [sfRun] at hrun
    cases hstep : sfStep lr s e with
    | none => rw [hstep] at hrun; cases hrun
    | some s1 =>
      rw [hstep] at hrun
      obtain ⟨hcore, hphase⟩ := hinv
      obtain ⟨hlen1, hmem, hinfl⟩ := hcore
      cases e with
      | start i =>
        have hseen : seen = false := by
          simp only [noStartAfterComplete, Bool.and_eq_true, Bool.not_eq_true'] at hnsac
          exact hnsac.1
        subst hseen
        have hrest : noStartAfterComplete false rest = true := by
          simp only [noStartAfterComplete, Bool.and_eq_true] at hnsac
          exact hnsac.2
        obtain ⟨halldone, hnone⟩ := hphase rfl
        cases hpc : s.pcs[i]? with
        | none =>
          simp only [sfStep, hpc] at hstep
          exact Option.noConfusion hstep
        | some p =>
          cases p with
          | waiting t =>
            simp only [sfStep, hpc] at hstep
            exact Option.noConfusion hstep
          | finished r =>
            simp only [sfStep, hpc] at hstep
            exact Option.noConfusion hstep
          | idle =>
            cases hifl : s.inflight with
            | some t =>
              simp only [sfStep, hpc, hifl, Option.some_inj] at hstep
              subst hstep
              obtain ⟨ht0, hl1⟩ := hinfl t hifl
              subst ht0
              refine (ih false _ s' ?_ hrest hrun).imp id (fun h => by rw [h]; simp)
              refine ⟨⟨hlen1, ?_, ?_⟩, ?_⟩
              · intro p hp
                rcases List.mem_or_eq_of_mem_set hp with hold | hnew
                · exact hmem p hold
                · subst hnew
                  refine ⟨fun t' ht' => ?_, fun r hr => SFPC.noConfusion hr⟩
                  injection ht' with h2
                  subst h2
                  exact ⟨rfl, hl1⟩
              · intro t' ht'
                have ht2 : some 0 = some t' := ht'
                injection ht2 with h3
                subst h3
                exact ⟨rfl, hl1⟩
              · intro _
                refine ⟨halldone, ?_⟩
                intro hcontra
                exact Option.noConfusion (hcontra : some 0 = none)
            | none =>
              simp only [sfStep, hpc, hifl, Option.some_inj] at hstep
              subst hstep
              have hl0 : s.tasks.length = 0 := hnone hifl
              have htasks : s.tasks = [] := List.eq_nil_of_length_eq_zero hl0
              refine (ih false _ s' ?_ hrest hrun).imp id (fun h => by rw [h]; simp)
              constructor
              · refine ⟨by simp [htasks], ?_, ?_⟩
                · intro p hp
                  rcases List.mem_or_eq_of_mem_set hp with hold | hnew
                  · refine ⟨fun t' ht' => absurd ((hmem p hold).1 t' ht').2 (by omega),
                           fun r hr => absurd ((hmem p hold).2 r hr).2 (by omega)⟩
                  · subst hnew
                    refine ⟨fun t' ht' => ?_, fun r hr => SFPC.noConfusion hr⟩
                    injection ht' with h2
                    subst h2
                    exact ⟨hl0, by simp [htasks]⟩
                · intro t' ht'
                  have ht2 : some s.tasks.length = some t' := ht'
                  injection ht2 with h3
                  subst h3
                  exact ⟨hl0, by simp [htasks]⟩
              · intro _
                refine ⟨by simp [htasks], ?_⟩
                intro hcontra
                exact Option.noConfusion (hcontra : some s.tasks.length = none)
      | complete t =>
        have hrest : noStartAfterComplete true rest = true := by
          simpa [noStartAfterComplete] using hnsac
        cases htk : s.tasks[t]? with
        | none =>
          simp only [sfStep, htk] at hstep
          exact Option.noConfusion hstep
        | some d =>
          cases d with
          | true =>
            simp only [sfStep, htk] at hstep
            exact Option.noConfusion hstep
          | false =>
            simp only [sfStep, htk, Option.some_inj] at hstep
            subst hstep
            refine (ih true _ s' ?_ hrest hrun).imp id (fun h => by rw [h])
            refine ⟨⟨by simpa using hlen1, ?_, ?_⟩, fun h => Bool.noConfusion h⟩
            · intro p hp
              refine ⟨fun t' ht' => ?_, fun r hr => ?_⟩
              · have hx := (hmem p hp).1 t' ht'
                exact ⟨hx.1, by simpa using hx.2⟩
              · have hx := (hmem p hp).2 r hr
                exact ⟨hx.1, by simpa using hx.2⟩
            · intro t' ht'
              have hx := hinfl t' ht'
              exact ⟨hx.1, by simpa using hx.2⟩
      | resume i =>
        have hrest : noStartAfterComplete seen rest = true := by
          simpa [noStartAfterComplete] using hnsac
        cases hpc : s.pcs[i]? with
        | none =>
          simp only [sfStep, hpc] at hstep
          exact Option.noConfusion hstep
        | some p =>
          cases p with
          | idle =>
            simp only [sfStep, hpc] at hstep
            exact Option.noConfusion hstep
          | finished r =>
            simp only [sfStep, hpc] at hstep
            exact Option.noConfusion hstep
          | waiting t =>
            by_cases hdone : s.tasks[t]? = some true
            · simp only [sfStep, hpc, hdone, if_true, Option.some_inj] at hstep
              subst hstep
              obtain ⟨ht0, hl1⟩ := (hmem _ (List.getElem?_mem hpc)).1 t rfl
              subst ht0
              cases hseen : seen with
              | false =>
                obtain ⟨halldone, _⟩ := hphase hseen
                exact Bool.noConfusion (halldone true (List.getElem?_mem hdone))
              | true =>
                subst hseen
                refine (ih true _ s' ?_ hrest hrun).imp id (fun h => by rw [h]; simp)
                refine ⟨⟨hlen1, ?_, ?_⟩, fun h => Bool.noConfusion h⟩
                · intro p hp
                  rcases List.mem_or_eq_of_mem_set hp with hold | hnew
                  · exact hmem p hold
                  · subst hnew
                    refine ⟨fun t' ht' => SFPC.noConfusion ht', fun r hr => ?_⟩
                    injection hr with h2
                    subst h2
                    exact ⟨rfl, hl1⟩
                · intro t' ht'
                  have ht2 : (if s.inflight = some 0 then none else s.inflight) = some t' := ht'
                  by_cases hsame : s.inflight = some 0
                  · rw [if_pos hsame] at ht2
                    exact Option.noConfusion ht2
                  · rw [if_neg hsame] at ht2
                    exact hinfl t' ht2
            · simp only [sfStep, hpc, hdone, if_false] at hstep
              exact Option.noConfusion hstep

/-- C4: for every login-outcome assignment, every number `n ≥ 1` of
concurrent callers and every cooperative schedule in which all callers
enter `_reauth_sso_profile` before the login task completes, a completed
run spawns exactly one external login invocation and every caller
finishes with that invocation's result; moreover any step that removes
the in-flight map entry does so only when the entry's task is already
done. -/
theorem c4_single_flight (lr : Nat → Bool) :
    (∀ (n : Nat) (events : List SFEvent) (s : SFState),
      1 ≤ n →
      noStartAfterComplete false events = true →
      sfRun lr (sfInit n) events = some s →
      (∀ p ∈ s.pcs, ∃ r, p = SFPC.finished r) →
      s.tasks.length = 1 ∧ ∀ p ∈ s.pcs, p = SFPC.finished (lr 0)) ∧
    (∀ (s : SFState) (e : SFEvent) (s' : SFState) (t : Nat),
      sfStep lr s e = some s' →
      s.inflight = some t → s'.inflight = none →
      s.tasks[t]? = some true) := by
  constructor
  · intro n events s hn hnsac hrun hfin
    have hinit : SFPhase lr false (sfInit n) := by
      constructor
      · refine ⟨by simp [sfInit], ?_, ?_⟩
        · intro p hp
          simp only [sfInit, List.mem_replicate] at hp
          refine ⟨fun t' ht' => ?_, fun r hr => ?_⟩
          · rw [hp.2] at ht'
            exact SFPC.noConfusion ht'
          · rw [hp.2] at hr
            exact SFPC.noConfusion hr
        · intro t' ht'
          exact Option.noConfusion ht'
      · intro _
        refine ⟨?_, fun _ => rfl⟩
        intro d hd
        simp [sfInit] at hd
    have hcore := sfRun_core lr events false (sfInit n) s hinit hnsac hrun
    obtain ⟨⟨hlen1, hmem, _⟩, hplen⟩ := hcore
    have hpcs_len : s.pcs.length = n := by
      rw [hplen]
      simp [sfInit]
    have hnonempty : s.pcs ≠ [] := by
      intro h0
      rw [h0] at hpcs_len
      simp at hpcs_len
      omega
    obtain ⟨p0, hp0⟩ := List.exists_mem_of_ne_nil s.pcs hnonempty
    obtain ⟨r0, hr0⟩ := hfin p0 hp0
    have hl1 : s.tasks.length = 1 := ((hmem p0 hp0).2 r0 hr0).2
    refine ⟨hl1, ?_⟩
    intro p hp
    obtain ⟨r, hr⟩ := hfin p hp
    have hfacts := (hmem p hp).2 r hr
    rw [hr, hfacts.1]
  · intro s e s' t hstep hinfl hnone
    cases e with
    | start i =>
      cases hpc : s.pcs[i]? with
      | none =>
        simp only [sfStep, hpc] at hstep
        exact Option.noConfusion hstep
      | some p =>
        cases p with
        | waiting t' =>
          simp only [sfStep, hpc] at hstep
          exact Option.noConfusion hstep
        | finished r =>
          simp only [sfStep, hpc] at hstep
          exact Option.noConfusion hstep
        | idle =>
          simp only [sfStep, hpc, hinfl, Option.some_inj] at hstep
          subst hstep
          have hc2 : some t = none := hinfl ▸ hnone
          exact Option.noConfusion hc2
    | complete t' =>
      cases htk : s.tasks[t']? with
      | none =>
        simp only [sfStep, htk] at hstep
        exact Option.noConfusion hstep
      | some d =>
        cases d with
        | true =>
          simp only [sfStep, htk] at hstep
          exact Option.noConfusion hstep
        | false =>
          simp only [sfStep, htk, Option.some_inj] at hstep
          subst hstep
          have hc2 : s.inflight = none := hnone
          rw [hinfl] at hc2
          exact Option.noConfusion hc2
    | resume i =>
      cases hpc : s.pcs[i]? with
      | none =>
        simp only [sfStep, hpc] at hstep
        exact Option.noConfusion hstep
      | some p =>
        cases p with
        | idle =>
          simp only [sfStep, hpc] at hstep
          exact Option.noConfusion hstep
        | finished r =>
          simp only [sfStep, hpc] at hstep
          exact Option.noConfusion hstep
        | waiting t' =>
          by_cases hdone : s.tasks[t']? = some true
          · simp only [sfStep, hpc, hdone, if_true, Option.some_inj] at hstep
            subst hstep
            have hc2 : (if s.inflight = some t' then none else s.inflight) = none := hnone
            by_cases hsame : s.inflight = some t'
            · rw [hinfl] at hsame
              injection hsame.symm with ht
              rw [← ht]
              exact hdone
            · rw [if_neg hsame] at hc2
              rw [hinfl] at hc2
              exact Option.noConfusion hc2
          · simp only [sfStep, hpc, hdone, if_false] at hstep
            exact Option.noConfusion hstep

theorem c4_single_flight_witness :
    sfRun (fun _ => true) (sfInit 2)
      [.start 0, .start 1, .complete 0, .resume 0, .resume 1]
      = some ⟨none, [true], [.finished true, .finished true]⟩ ∧
    (⟨none, [true], [.finished true, .finished true]⟩ : SFState).tasks.length = 1 ∧
    (∀ p ∈ (⟨none, [true], [.finished true, .finished true]⟩ : SFState).pcs,
      p = SFPC.finished true) := by
  refine ⟨by decide, ?_⟩
  have h := (c4_single_flight (fun _ => true)).1 2
    [.start 0, .start 1, .complete 0, .resume 0, .resume 1]
    ⟨none, [true], [.finished true, .finished true]⟩
    (by decide) (by decide) (by decide) (by decide)
  exact h

/-! ### C9: speculative tree navigation with rollback
(`S3Browser.navigate_to` app.py 2431-2444, `ensure_tree_path` app.py
2446-2487, the `show_prefix` failure paths app.py 2092-2101 and
2148-2158, `_remove_pending_nodes` app.py 3174-3183, `_clear_pending`
app.py 3185-3188) -/

/-- Registry key of one speculatively created node, mirroring the
`(node, kind, key)` triples stored in `_pending_created`. -/
inductive PendTag where
  | bucketNode (key : Option String × String)
  | prefixNode (key : Option String × String × String)
deriving DecidableEq, Repr

/-- Tree-and-registry state relevant to speculative navigation: widget
nodes are identified by ids drawn from `nextId`; `bucketNodes` and
`pfxNodes` are the `(profile, bucket)` / `(profile, bucket, prefix)`
lookup registries; `cursor` is the selected node. -/
structure NavState where
  nodes : List Nat
  nextId : Nat
  bucketNodes : List ((Option String × String) × Nat)
  pfxNodes : List ((Option String × String × String) × Nat)
  cursor : Option Nat
  pendingCreated : List (Nat × PendTag)
  pendingPrev : Option Nat
  pendingTarget : Option Nat
deriving DecidableEq, Repr

/-- The tree widget's root node id (`self.s3_tree.root`). -/
def rootId : Nat := 0

/-- Association-list removal, modelling `dict.pop(key, None)`. -/
def alistErase {κ ν : Type} [DecidableEq κ] : List (κ × ν) → κ → List (κ × ν)
  | [], _ => []
  | (k', v) :: rest, k => if k' = k then rest else (k', v) :: alistErase rest k

/-- `prefix.strip("/")`. -/
def stripSlashes (s : String) : String :=
  ⟨((s.data.dropWhile fun c => c = '/').reverse.dropWhile fun c => c = '/').reverse⟩

/-- `[part for part in prefix.strip("/").split("/") if part]`
(app.py 2471). -/
def pathParts (pfx : String) : List String :=
  ((splitSlash (stripSlashes pfx).data).map fun l => (⟨l⟩ : String)).filter fun p => p ≠ ""

/-- The per-segment loop of `ensure_tree_path` (app.py 2470-2487):
follow existing prefix nodes or create and register missing ones, and
append each creation to the ordered batch. -/
def ensureGo (profile : Option String) (bucket : String) :
    NavState → Nat → String → List String → List (Nat × PendTag) →
    NavState × Nat × List (Nat × PendTag)
  | st, node, _, [], created => (st, node, created)
  | st, _current, parentPfx, part :: rest, created =>
    let pp := parentPfx ++ part ++ "/"
    let key := (profile, bucket, pp)
    match alistGet? st.pfxNodes key with
    | some child => ensureGo profile bucket st child pp rest created
    | none =>
      let child := st.nextId
      let st' := { st with
        nodes := st.nodes ++ [child]
        nextId := st.nextId + 1
        pfxNodes := st.pfxNodes ++ [(key, child)] }
      ensureGo profile bucket st' child pp rest (created ++ [(child, .prefixNode key)])

/-- Embeds `ensure_tree_path` with `track_created=True` (app.py
2446-2487): ensure the bucket node, then walk the path segments. -/
def ensureTreePath (profile : Option String) (bucket : String) (pfx : String)
    (st : NavState) : NavState × Nat × List (Nat × PendTag) :=
  match alistGet? st.bucketNodes (profile, bucket) with
  | some bnode =>
    if pfx = "" then (st, bnode, [])
    else ensureGo profile bucket st bnode "" (pathParts pfx) []
  | none =>
    let bnode := st.nextId
    let st' := { st with
      nodes := st.nodes ++ [bnode]
      nextId := st.nextId + 1
      bucketNodes := st.bucketNodes ++ [((profile, bucket), bnode)] }
    let created := [(bnode, PendTag.bucketNode (profile, bucket))]
    if pfx = "" then (st', bnode, created)
    else ensureGo profile bucket st' bnode "" (pathParts pfx) created

/-- Embeds `navigate_to` (app.py 2431-2444): remember the previously
selected node, ensure the path (tracking creations), record the pending
batch, and select the target node. -/
def navigateTo (profile : Option String) (bucket : String) (pfx : String)
    (st : NavState) : NavState :=
  let prev := st.cursor
  let r := ensureTreePath profile bucket pfx st
  { r.1 with
    pendingCreated := r.2.2
    pendingPrev := prev
    pendingTarget := some r.2.1
    cursor := some r.2.1 }

/-- One reversal step of `_remove_pending_nodes` (app.py 3175-3183): pop
the created node's registry entry and remove the node. -/
def undoCore (core : List Nat × List ((Option String × String) × Nat) ×
    List ((Option String × String × String) × Nat)) (entry : Nat × PendTag) :
    List Nat × List ((Option String × String) × Nat) ×
      List ((Option String × String × String) × Nat) :=
  match entry.2 with
  | .bucketNode k => (core.1.erase entry.1, alistErase core.2.1 k, core.2.2)
  | .prefixNode k => (core.1.erase entry.1, core.2.1, alistErase core.2.2 k)

/-- Embeds `_remove_pending_nodes` (app.py 3174-3183): undo the pending
batch in reverse creation order, pruning registries and removing
nodes. -/
def removePendingNodes (st : NavState) : NavState :=
  let core := st.pendingCreated.reverse.foldl undoCore
    (st.nodes, st.bucketNodes, st.pfxNodes)
  { st with nodes := core.1, bucketNodes := core.2.1, pfxNodes := core.2.2 }

/-- Embeds `_clear_pending` (app.py 3185-3188). -/
def clearPending (st : NavState) : NavState :=
  { st with pendingCreated := [], pendingPrev := none, pendingTarget := none }

/-- The shared failure path of `show_prefix` (app.py 2092-2101 and
2148-2158): when the failing node is the pending target and nodes were
created speculatively, undo the whole batch, clear it and re-select the
previously selected node (or the root). -/
def rollbackNavigation (st : NavState) (node : Nat) : NavState :=
  if st.pendingTarget = some node ∧ st.pendingCreated ≠ [] then
    let prev := st.pendingPrev
    let st1 := clearPending (removePendingNodes st)
    { st1 with cursor := some (prev.getD rootId) }
  else st

/-- The success path's commit (app.py 2208-2209): the pending batch is
cleared and the created nodes stay. -/
def commitNavigation (st : NavState) (node : Nat) : NavState :=
  if st.pendingTarget = some node then clearPending st else st

/-- Well-formedness: every live node id is below the id supply. -/
def nodesWF (st : NavState) : Prop :=
  ∀ nodeId ∈ st.nodes, nodeId < st.nextId

theorem alistErase_append_fresh {κ ν : Type} [DecidableEq κ]
    (l : List (κ × ν)) (k : κ) (v : ν) (h : alistGet? l k = none) :
    alistErase (l ++ [(k, v)]) k = l := by
  induction l with
  | nil => simp [alistErase]
  | cons hd tl ih =>
    obtain ⟨k', v'⟩ := hd
    simp only [alistGet?] at h
    by_cases hk : k' = k
    · rw [if_pos hk] at h
      cases h
    · rw [if_neg hk] at h
      simp only [List.cons_append, alistErase]
      rw [if_neg hk]
      have happ : tl.append [(k, v)] = tl ++ [(k, v)] := rfl
      rw [happ, ih h]

theorem erase_append_singleton (l : List Nat) (a : Nat) (h : a ∉ l) :
    (l ++ [a]).erase a = l := by
  induction l with
  | nil => simp
  | cons b tl ih =>
    simp only [List.mem_cons] at h
    push_neg at h
    have hne : (b == a) = false := by
      simp only [beq_eq_false_iff_ne]
      exact fun hba => h.1 hba.symm
    simp only [List.cons_append, List.erase_cons, hne, Bool.false_eq_true, if_false]
    rw [ih h.2]

theorem ensureGo_spec (profile : Option String) (bucket : String)
    (parts : List String) :
    ∀ (st : NavState) (current : Nat) (pp : String)
      (created0 : List (Nat × PendTag)), nodesWF st →
    ∃ (st' : NavState) (node : Nat) (newE : List (Nat × PendTag)),
      ensureGo profile bucket st current pp parts created0
        = (st', node, created0 ++ newE) ∧
      st'.nodes = st.nodes ++ newE.map Prod.fst ∧
      newE.reverse.foldl undoCore (st'.nodes, st'.bucketNodes, st'.pfxNodes)
        = (st.nodes, st.bucketNodes, st.pfxNodes) := by
  induction parts with
  | nil =>
    intro st current pp created0 _
    exact ⟨st, current, [], by simp [ensureGo], by simp, rfl⟩
  | cons part rest ih =>
    intro st current pp created0 hwf
    cases hlook : alistGet? st.pfxNodes (profile, bucket, pp ++ part ++ "/") with
    | some child =>
      obtain ⟨st', node, newE, hEq, hnodes, hundo⟩ :=
        ih st child (pp ++ part ++ "/") created0 hwf
      refine ⟨st', node, newE, ?_, hnodes, hundo⟩
      simp only [ensureGo, hlook]
      exact hEq
    | none =>
      have hwf1 : nodesWF { st with
          nodes := st.nodes ++ [st.nextId]
          nextId := st.nextId + 1
          pfxNodes := st.pfxNodes
            ++ [((profile, bucket, pp ++ part ++ "/"), st.nextId)] } := by
        intro nodeId hmem
        simp only [List.mem_append, List.mem_singleton] at hmem
        rcases hmem with hold | hnew
        · have := hwf nodeId hold
          show nodeId < st.nextId + 1
          omega
        · show nodeId < st.nextId + 1
          omega
      obtain ⟨st', node, newE, hEq, hnodes, hundo⟩ :=
        ih _ st.nextId (pp ++ part ++ "/")
          (created0 ++ [(st.nextId, PendTag.prefixNode (profile, bucket, pp ++ part ++ "/"))])
          hwf1
      refine ⟨st', node,
        (st.nextId, PendTag.prefixNode (profile, bucket, pp ++ part ++ "/")) :: newE,
        ?_, ?_, ?_⟩
      · simp only [ensureGo, hlook]
        rw [hEq]
        simp
      · rw [hnodes]
        simp
      · simp only [List.reverse_cons, List.foldl_append, List.foldl_cons, List.foldl_nil]
        rw [hundo]
        simp only [undoCore]
        refine Prod.ext ?_ (Prod.ext ?_ ?_)
        · show ((st.nodes ++ [st.nextId]).erase st.nextId) = st.nodes
          apply erase_append_singleton
          intro hmem
          have := hwf st.nextId hmem
          omega
        · rfl
        · show alistErase (st.pfxNodes
              ++ [((profile, bucket, pp ++ part ++ "/"), st.nextId)])
              (profile, bucket, pp ++ part ++ "/") = st.pfxNodes
          exact alistErase_append_fresh st.pfxNodes _ st.nextId hlook

theorem ensureTreePath_spec (profile : Option String) (bucket pfx : String)
    (st : NavState) (hwf : nodesWF st) :
    ∃ (st' : NavState) (node : Nat) (created : List (Nat × PendTag)),
      ensureTreePath profile bucket pfx st = (st', node, created) ∧
      st'.nodes = st.nodes ++ created.map Prod.fst ∧
      created.reverse.foldl undoCore (st'.nodes, st'.bucketNodes, st'.pfxNodes)
        = (st.nodes, st.bucketNodes, st.pfxNodes) := by
  cases hlook : alistGet? st.bucketNodes (profile, bucket) with
  | some bnode =>
    by_cases hpfx : pfx = ""
    · refine ⟨st, bnode, [], ?_, by simp, rfl⟩
      simp [ensureTreePath, hlook, hpfx]
    · obtain ⟨st', node, newE, hEq, hnodes, hundo⟩ :=
        ensureGo_spec profile bucket (pathParts pfx) st bnode "" [] hwf
      refine ⟨st', node, newE, ?_, hnodes, hundo⟩
      simp only [ensureTreePath, hlook, hpfx, if_false]
      simpa using hEq
  | none =>
    have hwf1 : nodesWF { st with
        nodes := st.nodes ++ [st.nextId]
        nextId := st.nextId + 1
        bucketNodes := st.bucketNodes ++ [((profile, bucket), st.nextId)] } := by
      intro nodeId hmem
      simp only [List.mem_append, List.mem_singleton] at hmem
      rcases hmem with hold | hnew
      · have := hwf nodeId hold
        show nodeId < st.nextId + 1
        omega
      · show nodeId < st.nextId + 1
        omega
    have hbucket_undo : undoCore
        (st.nodes ++ [st.nextId], st.bucketNodes ++ [((profile, bucket), st.nextId)],
          st.pfxNodes) (st.nextId, PendTag.bucketNode (profile, bucket))
        = (st.nodes, st.bucketNodes, st.pfxNodes) := by
      simp only [undoCore]
      refine Prod.ext ?_ (Prod.ext ?_ ?_)
      · show ((st.nodes ++ [st.nextId]).erase st.nextId) = st.nodes
        apply erase_append_singleton
        intro hmem
        have := hwf st.nextId hmem
        omega
      · show alistErase (st.bucketNodes ++ [((profile, bucket), st.nextId)])
            (profile, bucket) = st.bucketNodes
        exact alistErase_append_fresh st.bucketNodes _ st.nextId hlook
      · rfl
    by_cases hpfx : pfx = ""
    · refine ⟨{ st with
          nodes := st.nodes ++ [st.nextId]
          nextId := st.nextId + 1
          bucketNodes := st.bucketNodes ++ [((profile, bucket), st.nextId)] },
        st.nextId, [(st.nextId, PendTag.bucketNode (profile, bucket))], ?_, ?_, ?_⟩
      · simp [ensureTreePath, hlook, hpfx]
      · simp
      · simp only [List.reverse_cons, List.reverse_nil, List.nil_append,
          List.foldl_cons, List.foldl_nil]
        exact hbucket_undo
    · obtain ⟨st', node, newE, hEq, hnodes, hundo⟩ :=
        ensureGo_spec profile bucket (pathParts pfx)
          { st with
            nodes := st.nodes ++ [st.nextId]
            nextId := st.nextId + 1
            bucketNodes := st.bucketNodes ++ [((profile, bucket), st.nextId)] }
          st.nextId ""
          [(st.nextId, PendTag.bucketNode (profile, bucket))] hwf1
      refine ⟨st', node,
        (st.nextId, PendTag.bucketNode (profile, bucket)) :: newE, ?_, ?_, ?_⟩
      · simp only [ensureTreePath, hlook, hpfx, if_false]
        rw [hEq]
        simp
      · rw [hnodes]
        simp
      · simp only [List.reverse_cons, List.foldl_append, List.foldl_cons, List.foldl_nil]
        rw [hundo]
        exact hbucket_undo

/-- C9: every node created speculatively by one `navigate_to` attempt is
tracked, in creation order, in the single pending batch (the new tree
nodes are exactly the batch's nodes); on failure the rollback undoes the
whole batch in reverse creation order, restoring the node set and both
`(profile, bucket[, prefix])` lookup registries exactly and re-selecting
the previously selected node (the root when none was selected); on
success the commit clears the batch and leaves all nodes and registries
untouched (the batch becomes permanent). -/
theorem c9_speculative_navigation (profile : Option String) (bucket pfx : String)
    (st : NavState) (hwf : nodesWF st) :
    ∃ (st' : NavState) (node : Nat) (created : List (Nat × PendTag)),
      ensureTreePath profile bucket pfx st = (st', node, created) ∧
      navigateTo profile bucket pfx st
        = { st' with
            pendingCreated := created
            pendingPrev := st.cursor
            pendingTarget := some node
            cursor := some node } ∧
      (navigateTo profile bucket pfx st).nodes = st.nodes ++ created.map Prod.fst ∧
      (created ≠ [] →
        (rollbackNavigation (navigateTo profile bucket pfx st) node).nodes = st.nodes ∧
        (rollbackNavigation (navigateTo profile bucket pfx st) node).bucketNodes
          = st.bucketNodes ∧
        (rollbackNavigation (navigateTo profile bucket pfx st) node).pfxNodes
          = st.pfxNodes ∧
        (rollbackNavigation (navigateTo profile bucket pfx st) node).cursor
          = some (st.cursor.getD rootId) ∧
        (rollbackNavigation (navigateTo profile bucket pfx st) node).pendingCreated
          = []) ∧
      ((commitNavigation (navigateTo profile bucket pfx st) node).nodes
          = (navigateTo profile bucket pfx st).nodes ∧
       (commitNavigation (navigateTo profile bucket pfx st) node).bucketNodes
          = (navigateTo profile bucket pfx st).bucketNodes ∧
       (commitNavigation (navigateTo profile bucket pfx st) node).pfxNodes
          = (navigateTo profile bucket pfx st).pfxNodes ∧
       (commitNavigation (navigateTo profile bucket pfx st) node).pendingCreated
          = []) := by
  obtain ⟨st', node, created, hEq, hnodes, hundo⟩ :=
    ensureTreePath_spec profile bucket pfx st hwf
  have hnav : navigateTo profile bucket pfx st
      = { st' with
          pendingCreated := created
          pendingPrev := st.cursor
          pendingTarget := some node
          cursor := some node } := by
    unfold navigateTo
    rw [hEq]
  refine ⟨st', node, created, hEq, hnav, ?_, ?_, ?_⟩
  · rw [hnav]
    exact hnodes
  · intro hne
    have hcond : (navigateTo profile bucket pfx st).pendingTarget = some node ∧
        (navigateTo profile bucket pfx st).pendingCreated ≠ [] := by
      rw [hnav]
      exact ⟨rfl, hne⟩
    have hcore : (navigateTo profile bucket pfx st).pendingCreated.reverse.foldl undoCore
        ((navigateTo profile bucket pfx st).nodes,
         (navigateTo profile bucket pfx st).bucketNodes,
         (navigateTo profile bucket pfx st).pfxNodes)
        = (st.nodes, st.bucketNodes, st.pfxNodes) := by
      rw [hnav]
      exact hundo
    have hrollEq : rollbackNavigation (navigateTo profile bucket pfx st) node
        = { clearPending (removePendingNodes (navigateTo profile bucket pfx st)) with
            cursor := some ((navigateTo profile bucket pfx st).pendingPrev.getD rootId) } := by
      unfold rollbackNavigation
      rw [if_pos hcond]
    refine ⟨?_, ?_, ?_, ?_, ?_⟩
    · rw [hrollEq]
      show ((navigateTo profile bucket pfx st).pendingCreated.reverse.foldl undoCore
        ((navigateTo profile bucket pfx st).nodes,
         (navigateTo profile bucket pfx st).bucketNodes,
         (navigateTo profile bucket pfx st).pfxNodes)).1 = st.nodes
      rw [hcore]
    · rw [hrollEq]
      show ((navigateTo profile bucket pfx st).pendingCreated.reverse.foldl undoCore
        ((navigateTo profile bucket pfx st).nodes,
         (navigateTo profile bucket pfx st).bucketNodes,
         (navigateTo profile bucket pfx st).pfxNodes)).2.1 = st.bucketNodes
      rw [hcore]
    · rw [hrollEq]
      show ((navigateTo profile bucket pfx st).pendingCreated.reverse.foldl undoCore
        ((navigateTo profile bucket pfx st).nodes,
         (navigateTo profile bucket pfx st).bucketNodes,
         (navigateTo profile bucket pfx st).pfxNodes)).2.2 = st.pfxNodes
      rw [hcore]
    · rw [hrollEq]
      show some ((navigateTo profile bucket pfx st).pendingPrev.getD rootId)
        = some (st.cursor.getD rootId)
      rw [hnav]
    · rw [hrollEq]
      rfl
  · unfold commitNavigation
    rw [if_pos (by rw [hnav])]
    exact ⟨rfl, rfl, rfl, rfl⟩

/-- Witness for C9 at a concrete input: navigating to
`s3://b/x/` from a tree holding only the root. -/
theorem c9_speculative_navigation_witness :
    ∃ (st' : NavState) (node : Nat) (created : List (Nat × PendTag)),
      ensureTreePath none "b" "x/" ⟨[0], 1, [], [], some 0, [], none, none⟩
        = (st', node, created) ∧
      navigateTo none "b" "x/" ⟨[0], 1, [], [], some 0, [], none, none⟩
        = { st' with
            pendingCreated := created
            pendingPrev := some 0
            pendingTarget := some node
            cursor := some node } ∧
      (navigateTo none "b" "x/" ⟨[0], 1, [], [], some 0, [], none, none⟩).nodes
        = [0] ++ created.map Prod.fst ∧
      (created ≠ [] →
        (rollbackNavigation
          (navigateTo none "b" "x/" ⟨[0], 1, [], [], some 0, [], none, none⟩) node).nodes
          = [0] ∧
        (rollbackNavigation
          (navigateTo none "b" "x/" ⟨[0], 1, [], [], some 0, [], none, none⟩)
            node).bucketNodes = [] ∧
        (rollbackNavigation
          (navigateTo none "b" "x/" ⟨[0], 1, [], [], some 0, [], none, none⟩)
            node).pfxNodes = [] ∧
        (rollbackNavigation
          (navigateTo none "b" "x/" ⟨[0], 1, [], [], some 0, [], none, none⟩)
            node).cursor = some 0 ∧
        (rollbackNavigation
          (navigateTo none "b" "x/" ⟨[0], 1, [], [], some 0, [], none, none⟩)
            node).pendingCreated = []) ∧
      ((commitNavigation
          (navigateTo none "b" "x/" ⟨[0], 1, [], [], some 0, [], none, none⟩) node).nodes
          = (navigateTo none "b" "x/" ⟨[0], 1, [], [], some 0, [], none, none⟩).nodes ∧
       (commitNavigation
          (navigateTo none "b" "x/" ⟨[0], 1, [], [], some 0, [], none, none⟩)
            node).bucketNodes
          = (navigateTo none "b" "x/" ⟨[0], 1, [], [], some 0, [], none, none⟩).bucketNodes ∧
       (commitNavigation
          (navigateTo none "b" "x/" ⟨[0], 1, [], [], some 0, [], none, none⟩)
            node).pfxNodes
          = (navigateTo none "b" "x/" ⟨[0], 1, [], [], some 0, [], none, none⟩).pfxNodes ∧
       (commitNavigation
          (navigateTo none "b" "x/" ⟨[0], 1, [], [], some 0, [], none, none⟩)
            node).pendingCreated = []) :=
  c9_speculative_navigation none "b" "x/" ⟨[0], 1, [], [], some 0, [], none, none⟩
    (by
      intro nodeId h
      have h2 : nodeId ∈ [0] := h
      simp only [List.mem_singleton] at h2
      show nodeId < 1
      omega)

end AwsS3Tui
